import Mathlib

/-!
Verification of `annotate/way.go`.

A shallow embedding of `annotate/way.go` (package `annotate`): the adapter that
wraps ways as parents of the matching engine, builds the node-history index from
a datasource and writes the computed updates back onto the ways.

Conventions of the embedding

* A `*osm.Way` is an address (`WayPtr`) into a heap of ways; the `osm.Ways`
  slice is the list of addresses held by its backing array.  A function that
  changes the backing array or the heap returns the new contents.
* A Go slice whose nil-ness is observed (`core.ChildList`) is an `Option (List _)`
  with `none` the nil slice.  A `core.Child` interface value is an
  `Option childNode` with `none` the nil interface.
* History nodes (`*osm.Node`) are never written by this file and are embedded
  by value.  Coordinates (`float64`) are only copied and are embedded as their
  bit pattern.  Integers are only copied and compared, never computed with.
* The datasource is a transition function on a datasource state; every call
  made to the datasource, to an option and to `core.Compute` is appended to a
  log of events.
* A run-time panic (index out of range) is an explicit outcome.
* What the datasource was asked and what it answered is stated against
  `replayFetches`, which calls `NodeHistory` along a list of IDs without any of
  the loops of the code.
-/

namespace Annotate

/-! ## Data model -/

/-- A `time.Time` value; `Time.zero` is the zero value `time.Time{}`. -/
structure Time where
  wall : Nat
  ext : Int
deriving DecidableEq, Repr

/-- The zero value `time.Time{}`. -/
def Time.zero : Time := ⟨0, 0⟩

/-- A `float64`, as its bit pattern: the code only copies coordinates. -/
abbrev Float64 := Nat

/-- The type `osm.WayNode`: an entry of a way's node list. -/
structure WayNode where
  ID : Int
  Version : Int
  ChangesetID : Int
  Lat : Float64
  Lon : Float64
deriving DecidableEq, Repr

/-- The type `osm.Node`: one version of a node, as returned by the datasource. -/
structure Node where
  ID : Int
  Lat : Float64
  Lon : Float64
  Visible : Bool
  Version : Int
  ChangesetID : Int
  Timestamp : Time
deriving DecidableEq, Repr

/-- The type `osm.Update`. -/
structure Update where
  Index : Int
  Version : Int
  ChangesetID : Int
  Lat : Float64
  Lon : Float64
  Timestamp : Time
deriving DecidableEq, Repr

/-- The type `osm.Updates`. -/
abbrev Updates := List Update

/-- The type `osm.Way` (the fields this file reads or writes). -/
structure Way where
  ID : Int
  Version : Int
  ChangesetID : Int
  Visible : Bool
  Timestamp : Time
  Committed : Option Time
  Nodes : List WayNode
  Updates : Updates
deriving DecidableEq, Repr

/-- A non-nil `*osm.Way`. -/
abbrev WayPtr := Nat

/-- The ways in memory. -/
abbrev Heap := WayPtr → Way

/-- Write through a way pointer. -/
def Heap.set (heap : Heap) (p : WayPtr) (w : Way) : Heap :=
  fun q => if q = p then w else heap q

/-- The type `osm.Type`. -/
inductive FeatureType where
  | node
  | way
  | relation
deriving DecidableEq, Repr

/-- The type `osm.FeatureID`: a feature type and a numeric reference. -/
structure FeatureID where
  Kind : FeatureType
  Ref : Int
deriving DecidableEq, Repr

/-- The type `childNode` of the source: a node version with its position in the
history (it is declared in another file of the package; the two fields are the
ones `nodesToChildList` sets). -/
structure childNode where
  Index : Int
  Node : Node
deriving DecidableEq, Repr

/-- A `core.Child` interface value; `none` is the nil interface. -/
abbrev Child := Option childNode

/-- A `core.ChildList` slice; `none` is the nil slice. -/
abbrev ChildList := Option (List Child)

/-- The type `parentWay`: a way wrapped as a `core.Parent`. -/
structure parentWay where
  Way : WayPtr
  children : ChildList
deriving DecidableEq, Repr

/-! ## Sorting by (ID, Version) -/

/-- The order "first by ID, then by Version" on (ID, Version) keys. -/
def idVersionLE (a b : Int × Int) : Prop :=
  a.1 < b.1 ∨ (a.1 = b.1 ∧ a.2 ≤ b.2)

instance idVersionLE.decidable (a b : Int × Int) : Decidable (idVersionLE a b) :=
  inferInstanceAs (Decidable (a.1 < b.1 ∨ (a.1 = b.1 ∧ a.2 ≤ b.2)))

/-- Two elements are in (ID, Version) order. -/
def byIDVersion {α : Type} (key : α → Int × Int) (a b : α) : Prop :=
  idVersionLE (key a) (key b)

instance byIDVersion.decidable {α : Type} (key : α → Int × Int) :
    DecidableRel (byIDVersion key) :=
  fun a b => inferInstanceAs (Decidable (idVersionLE (key a) (key b)))

/-- Modelled from the spec: `SortByIDVersion` of `osm.Ways` and `osm.Nodes`
(package `osm`, not under src/) is missing.  It is called for its effect on
the slice it receives and returns nothing, so it reorders the backing array in
place; the spec orders records "by version number" and "in increasing
(identity, Version) order".  The result given here is the new contents of the
slice.  The order of elements with equal (ID, Version) is one possible
choice. -/
def SortByIDVersion {α : Type} (key : α → Int × Int) (l : List α) : List α :=
  List.insertionSort (byIDVersion key) l

/-- The (ID, Version) key of a history node. -/
def Node.key (n : Node) : Int × Int := (n.ID, n.Version)

/-- The (ID, Version) key of the way behind a pointer. -/
def wayKey (heap : Heap) (p : WayPtr) : Int × Int := ((heap p).ID, (heap p).Version)

/-! ## nodesToChildList -/

/-- What `nodesToChildList` leaves behind: the contents of the `nodes` slice it
was given (sorted in place) and the child list it returns. -/
structure ChildListResult where
  nodes : List Node
  list : ChildList
deriving DecidableEq, Repr

/-- The loop of `nodesToChildList`: `list[i] = &childNode{Index: i, Node: n}`
for the nodes from position `i` on. -/
def childrenFrom : Nat → List Node → List Child
  | _, [] => []
  | i, n :: rest => some { Index := (i : Int), Node := n } :: childrenFrom (i + 1) rest

/-- The function `nodesToChildList`: `make` gives a non-nil list of
`len(nodes)` entries, the nodes are sorted in place, and entry `i` becomes the
child wrapping the `i`-th sorted node. -/
def nodesToChildList (nodes : List Node) : ChildListResult :=
  let sorted := SortByIDVersion Node.key nodes
  { nodes := sorted, list := some (childrenFrom 0 sorted) }

/-! ## parentWay -/

/-- The method `parentWay.Committed`. -/
def parentWay.Committed (w : parentWay) (heap : Heap) : Time :=
  match (heap w.Way).Committed with
  | none => Time.zero
  | some t => t

/-- Modelled from the spec: `osm.WayNodes.FeatureIDs` (package `osm`, not under
src/) is missing; the spec's reference list is the "ordered sequence of
point-feature-identity references", an identity being "type + numeric
reference". -/
def WayNodes.FeatureIDs (nodes : List WayNode) : List FeatureID :=
  nodes.map fun n => { Kind := FeatureType.node, Ref := n.ID }

/-- The method `parentWay.Refs`. -/
def parentWay.Refs (w : parentWay) (heap : Heap) : List FeatureID :=
  WayNodes.FeatureIDs (heap w.Way).Nodes

/-- The method `parentWay.Children`. -/
def parentWay.Children (w : parentWay) : ChildList :=
  w.children

/-- The four assignments of `SetChildren` to `w.Way.Nodes[i]`. -/
def copyNode (wn : WayNode) (n : Node) : WayNode :=
  { wn with Version := n.Version, ChangesetID := n.ChangesetID, Lat := n.Lat, Lon := n.Lon }

/-- The loop of `SetChildren` from position `i` on, over the way's node list;
`none` is the index-out-of-range panic of `w.Way.Nodes[i]`. -/
def setChildrenLoop : List Child → Nat → List WayNode → Option (List WayNode)
  | [], _, nodes => some nodes
  | none :: rest, i, nodes => setChildrenLoop rest (i + 1) nodes
  | some child :: rest, i, nodes =>
    match nodes[i]? with
    | none => none
    | some wn => setChildrenLoop rest (i + 1) (nodes.set i (copyNode wn child.Node))

/-- The method `parentWay.SetChildren`: the new receiver and the new heap, or
`none` when it panics. -/
def parentWay.SetChildren (w : parentWay) (list : ChildList) (heap : Heap) :
    Option (parentWay × Heap) :=
  match setChildrenLoop (list.getD []) 0 (heap w.Way).Nodes with
  | none => none
  | some nodes =>
    some ({ w with children := list }, heap.set w.Way { heap w.Way with Nodes := nodes })

/-! ## The history index -/

/-- Modelled from the spec: `core.Histories` (package `annotate/internal/core`,
not under src/) is missing.  The spec's History Index is a "mapping from
point-feature identity to its ordered Version Record sequence"; an identity
without an entry is a distinguishable state.  The value `&core.Histories{}` is
the empty map. -/
structure Histories where
  data : List (FeatureID × ChildList)
deriving DecidableEq, Repr

/-- The value `&core.Histories{}`. -/
def Histories.empty : Histories := ⟨[]⟩

/-- Modelled from the spec: `core.Histories.Get` is missing; it reads the
mapping, and an identity without an entry gives the nil list. -/
def Histories.Get (h : Histories) (id : FeatureID) : ChildList :=
  match h.data.lookup id with
  | none => none
  | some list => list

/-- Modelled from the spec: `core.Histories.Set` is missing; it writes the
entry of an identity. -/
def Histories.Set (h : Histories) (id : FeatureID) (list : ChildList) : Histories :=
  ⟨(id, list) :: h.data⟩

/-! ## Calls to the collaborators -/

instance Except.decEq {ε α : Type} [DecidableEq ε] [DecidableEq α] :
    DecidableEq (Except ε α)
  | .error a, .error b =>
    if h : a = b then isTrue (congrArg Except.error h)
    else isFalse (fun h2 => h (Except.error.inj h2))
  | .ok a, .ok b =>
    if h : a = b then isTrue (congrArg Except.ok h)
    else isFalse (fun h2 => h (Except.ok.inj h2))
  | .error _, .ok _ => isFalse (fun h => Except.noConfusion h)
  | .ok _, .error _ => isFalse (fun h => Except.noConfusion h)

/-- A call made during a run, with what it was given and what it answered.
* `nodeHistory id resp after`: `datasource.NodeHistory(ctx, id)` answered `resp`;
  `after` is the contents of the returned slice when `convertWayData` is done
  with it (nothing is returned with an error).
* `option idx arg err`: option number `idx` was applied to the options value
  `arg` and returned `err`.
* `compute ...`: `core.Compute` was called with these arguments and answered
  `resp`. -/
inductive Event (E O : Type) where
  | nodeHistory (id : Int) (resp : Except E (List Node)) (after : List Node)
  | option (idx : Nat) (arg : O) (err : Option E)
  | compute (parents : List parentWay) (histories : Histories) (threshold : Int)
      (opts : O) (resp : Except E (List Updates))
deriving DecidableEq

/-- The event is a node-history fetch that returned an error. -/
def Event.fetchFailed {E O : Type} : Event E O → Bool
  | .nodeHistory _ (.error _) _ => true
  | _ => false

/-- The event is a node-history fetch. -/
def Event.isFetch {E O : Type} : Event E O → Bool
  | .nodeHistory _ _ _ => true
  | _ => false

/-- The event is the application of an option. -/
def Event.isOption {E O : Type} : Event E O → Bool
  | .option _ _ _ => true
  | _ => false

/-- The event is the application of an option that returned an error. -/
def Event.optionFailed {E O : Type} : Event E O → Bool
  | .option _ _ (some _) => true
  | _ => false

/-- The event is a call of `core.Compute`. -/
def Event.isCompute {E O : Type} : Event E O → Bool
  | .compute _ _ _ _ _ => true
  | _ => false

/-- The node IDs `NodeHistory` was called with, in call order. -/
def fetchedIDs {E O : Type} : List (Event E O) → List Int
  | [] => []
  | .nodeHistory id _ _ :: rest => id :: fetchedIDs rest
  | _ :: rest => fetchedIDs rest

/-- A datasource: `NodeHistory(ctx, id)` as a transition on the datasource's
state (the context is part of it), answering an error or a node list. -/
abbrev NodeDatasource (σ E : Type) := σ → Int → σ × Except E (List Node)

/-! ## convertWayData -/

/-- The variables of the loops of `convertWayData`. -/
structure ConvState (σ E O : Type) where
  histories : Histories
  ds : σ
  log : List (Event E O)

/-- The inner loop of `convertWayData` over the nodes of one way: a node whose
identity has a non-nil entry in the index is skipped, otherwise its history is
fetched, and an error of the datasource ends the loop. -/
def fetchWayNodes {σ E O : Type} (NodeHistory : NodeDatasource σ E) :
    List WayNode → ConvState σ E O → ConvState σ E O × Option E
  | [], st => (st, none)
  | n :: rest, st =>
    let childID : FeatureID := { Kind := FeatureType.node, Ref := n.ID }
    if (st.histories.Get childID).isSome then
      fetchWayNodes NodeHistory rest st
    else
      match (NodeHistory st.ds n.ID).2 with
      | .error err =>
        ({ histories := st.histories, ds := (NodeHistory st.ds n.ID).1,
           log := st.log ++ [Event.nodeHistory n.ID (.error err) []] }, some err)
      | .ok nodes =>
        fetchWayNodes NodeHistory rest
          { histories := st.histories.Set childID (nodesToChildList nodes).list,
            ds := (NodeHistory st.ds n.ID).1,
            log := st.log ++ [Event.nodeHistory n.ID (.ok nodes) (nodesToChildList nodes).nodes] }

/-- The outer loop of `convertWayData` over the (sorted) ways: `parents[i]`
becomes `&parentWay{Way: w}` and the nodes of `w` are fetched. -/
def convertLoop {σ E O : Type} (NodeHistory : NodeDatasource σ E) (heap : Heap) :
    List WayPtr → List parentWay → ConvState σ E O →
      (List parentWay × ConvState σ E O) × Option E
  | [], parents, st => ((parents, st), none)
  | w :: rest, parents, st =>
    match fetchWayNodes NodeHistory (heap w).Nodes st with
    | (st1, some err) => ((parents ++ [{ Way := w, children := none }], st1), some err)
    | (st1, none) =>
      convertLoop NodeHistory heap rest (parents ++ [{ Way := w, children := none }]) st1

/-- What `convertWayData` leaves behind: the contents of the `ways` slice
(sorted in place), the datasource, the log, and what it returns: an error, or
the parents and the history index. -/
structure ConvResult (σ E O : Type) where
  ways : List WayPtr
  ds : σ
  log : List (Event E O)
  result : Except E (List parentWay × Histories)

/-- The function `convertWayData`. -/
def convertWayData {σ E O : Type} (heap : Heap) (ways : List WayPtr)
    (NodeHistory : NodeDatasource σ E) (ds : σ) : ConvResult σ E O :=
  let sorted := SortByIDVersion (wayKey heap) ways
  match convertLoop NodeHistory heap sorted []
      { histories := Histories.empty, ds := ds, log := [] } with
  | ((_, st), some err) => { ways := sorted, ds := st.ds, log := st.log, result := .error err }
  | ((parents, st), none) =>
    { ways := sorted, ds := st.ds, log := st.log, result := .ok (parents, st.histories) }

/-! ## Ways -/

/-- An option of `Ways`: it may change the options value and may return an
error. -/
abbrev WaysOption (E O : Type) := O → O × Option E

/-- The function `core.Compute` (package `annotate/internal/core`, not under
src/), taken as a parameter: from the parents, the index, the threshold and the
options it answers an error or one update list per parent, and it may write to
the ways through the parents (`SetChildren`). -/
abbrev ComputeFn (E O : Type) :=
  List parentWay → Histories → Int → O → Heap → Heap × Except E (List Updates)

/-- The loop of `Ways` over the options, from option number `idx` on: the first
error ends it. -/
def applyOptions {E O : Type} :
    List (WaysOption E O) → Nat → O → List (Event E O) → (O × List (Event E O)) × Option E
  | [], _, computeOpts, log => ((computeOpts, log), none)
  | o :: rest, idx, computeOpts, log =>
    match (o computeOpts).2 with
    | some err => (((o computeOpts).1, log ++ [Event.option idx computeOpts (some err)]), some err)
    | none =>
      applyOptions rest (idx + 1) (o computeOpts).1 (log ++ [Event.option idx computeOpts none])

/-- The loop "fill in updates" of `Ways` from position `i` on:
`ways[i].Updates = updates`; the flag is false when `ways[i]` is out of
range (a panic), and the heap is then as far as it was written. -/
def fillUpdates (ways : List WayPtr) : List Updates → Nat → Heap → Heap × Bool
  | [], _, heap => (heap, true)
  | updates :: rest, i, heap =>
    match ways[i]? with
    | none => (heap, false)
    | some w => fillUpdates ways rest (i + 1) (heap.set w { heap w with Updates := updates })

/-- How a call ended: it returned an `error` value (`none` is nil), or it
panicked. -/
inductive Outcome (E : Type) where
  | returned (err : Option E)
  | panicked
deriving DecidableEq, Repr

/-- What a call of `Ways` leaves behind. -/
structure WaysResult (σ E O : Type) where
  ways : List WayPtr
  heap : Heap
  ds : σ
  log : List (Event E O)
  outcome : Outcome E

/-- The function `Ways`.  The function `mapErrors` (another file of the
package) is a parameter; `zeroOptions` is the value `core.Options{}`. -/
def Ways {σ E O : Type} (heap : Heap) (ways : List WayPtr)
    (NodeHistory : NodeDatasource σ E) (ds : σ) (threshold : Int)
    (opts : List (WaysOption E O)) (zeroOptions : O) (Compute : ComputeFn E O)
    (mapErrors : Option E → Option E) : WaysResult σ E O :=
  let c : ConvResult σ E O := convertWayData heap ways NodeHistory ds
  match c.result with
  | .error err =>
    { ways := c.ways, heap := heap, ds := c.ds, log := c.log,
      outcome := .returned (mapErrors (some err)) }
  | .ok (parents, histories) =>
    match applyOptions opts 0 zeroOptions c.log with
    | ((_, log), some err) =>
      { ways := c.ways, heap := heap, ds := c.ds, log := log, outcome := .returned (some err) }
    | ((computeOpts, log), none) =>
      let r := Compute parents histories threshold computeOpts heap
      let log1 := log ++ [Event.compute parents histories threshold computeOpts r.2]
      match r.2 with
      | .error err =>
        { ways := c.ways, heap := r.1, ds := c.ds, log := log1,
          outcome := .returned (mapErrors (some err)) }
      | .ok updatesForParents =>
        match fillUpdates c.ways updatesForParents 0 r.1 with
        | (heap1, false) =>
          { ways := c.ways, heap := heap1, ds := c.ds, log := log1, outcome := .panicked }
        | (heap1, true) =>
          { ways := c.ways, heap := heap1, ds := c.ds, log := log1, outcome := .returned none }

/-! ## Specification vocabulary -/

/-- The node at a position after `SetChildren`, from the child list's entry for
the position (`none`: the list has no such position). -/
def patchedNode (entry : Option Child) (wn : WayNode) : WayNode :=
  match entry with
  | some (some child) => copyNode wn child.Node
  | _ => wn

/-- Every event is a node-history fetch that succeeded. -/
def FetchesOk {E O : Type} (log : List (Event E O)) : Prop :=
  ∀ ev ∈ log, ev.isFetch = true ∧ ev.fetchFailed = false

/-- The index is the record of the fetches of the log: all of them succeeded,
no ID was fetched twice, the keys with a non-nil entry are the fetched node
IDs, and the entry of a fetched ID is `nodesToChildList` of what the fetch
returned. -/
structure IndexInv {σ E O : Type} (st : ConvState σ E O) : Prop where
  fetchesOk : FetchesOk st.log
  nodup : (fetchedIDs st.log).Nodup
  keys : ∀ fid : FeatureID, (st.histories.Get fid).isSome = true ↔
    fid.Kind = FeatureType.node ∧ fid.Ref ∈ fetchedIDs st.log
  entries : ∀ id nodes after, Event.nodeHistory id (Except.ok nodes) after ∈ st.log →
    st.histories.Get { Kind := FeatureType.node, Ref := id } = (nodesToChildList nodes).list ∧
    after = (nodesToChildList nodes).nodes

/-- The node ID is referenced by one of the ways. -/
def Referenced (heap : Heap) (ways : List WayPtr) (id : Int) : Prop :=
  ∃ w ∈ ways, ∃ n ∈ (heap w).Nodes, n.ID = id


/-- The applications of the first `count` options in the given order, the
first one to `computeOpts` and each next one to the options value the one
before it left, numbered from `idx`: the events they log. -/
def optionTrace {E O : Type} : List (WaysOption E O) → Nat → O → Nat → List (Event E O)
  | [], _, _, _ => []
  | _ :: _, _, _, 0 => []
  | o :: rest, idx, computeOpts, count + 1 =>
    Event.option idx computeOpts (o computeOpts).2
      :: optionTrace rest (idx + 1) (o computeOpts).1 count

/-- The IDs of `ids` that are not in `seen`, each once, in the order of their
first occurrence. -/
def newIDs : List Int → List Int → List Int
  | _, [] => []
  | seen, id :: rest =>
    if id ∈ seen then newIDs seen rest else id :: newIDs (id :: seen) rest

/-- The node IDs the ways reference, reference by reference: the ways in the
order of the slice, the nodes of a way in the order of its node list. -/
def referencedIDs (heap : Heap) : List WayPtr → List Int
  | [] => []
  | w :: rest => (heap w).Nodes.map WayNode.ID ++ referencedIDs heap rest

/-- The node IDs to ask the datasource about: the distinct IDs the ways of the
sorted slice reference, in the order of their first reference. -/
def requestOrder (heap : Heap) (ways : List WayPtr) : List Int :=
  newIDs [] (referencedIDs heap (SortByIDVersion (wayKey heap) ways))

/-- What asking the datasource gives: its state afterwards, the calls with
their answers, and the first error. -/
structure Replay (σ E O : Type) where
  ds : σ
  log : List (Event E O)
  err : Option E

/-- The datasource asked for the IDs of a list, one call of `NodeHistory`
after the other from the state `ds`, up to and including the first call that
answers an error. -/
def replayFetches {σ E O : Type} (NodeHistory : NodeDatasource σ E) :
    σ → List Int → Replay σ E O
  | ds, [] => { ds := ds, log := [], err := none }
  | ds, id :: rest =>
    match (NodeHistory ds id).2 with
    | .error err =>
      { ds := (NodeHistory ds id).1, log := [Event.nodeHistory id (.error err) []],
        err := some err }
    | .ok nodes =>
      let r : Replay σ E O := replayFetches NodeHistory (NodeHistory ds id).1 rest
      { ds := r.ds,
        log := Event.nodeHistory id (.ok nodes) (nodesToChildList nodes).nodes :: r.log,
        err := r.err }

/-! ## Concrete inputs -/

/-- A history node with the given ID and version. -/
def exNode (id v : Int) : Node :=
  { ID := id, Lat := 10 * v.toNat, Lon := 20 * v.toNat, Visible := true, Version := v,
    ChangesetID := 100 + v, Timestamp := Time.zero }

/-- A way node that references the node `id`. -/
def exWayNode (id : Int) : WayNode :=
  { ID := id, Version := 0, ChangesetID := 0, Lat := 0, Lon := 0 }

/-- A way with the given ID, version and node list. -/
def exWay (id v : Int) (nodes : List WayNode) : Way :=
  { ID := id, Version := v, ChangesetID := 7, Visible := true, Timestamp := Time.zero,
    Committed := none, Nodes := nodes, Updates := [] }

/-- An update list to tell apart. -/
def exUpdates (k : Int) : Updates :=
  [{ Index := k, Version := 1, ChangesetID := 1, Lat := 0, Lon := 0, Timestamp := Time.zero }]

/-- A heap with four ways: address 0 holds way 2 (version 1, nodes 5 and 6),
address 1 way 1 version 2 (node 6), address 2 way 1 version 1 (no node),
address 3 way 3 (node 7). -/
def exHeap : Heap := fun p =>
  if p = 0 then exWay 2 1 [exWayNode 5, exWayNode 6]
  else if p = 1 then exWay 1 2 [exWayNode 6]
  else if p = 2 then exWay 1 1 []
  else if p = 3 then exWay 3 1 [exWayNode 7]
  else exWay 0 0 []

/-- A datasource that counts its calls: node 5 has versions 2 and 1 (in this
order), node 6 has an empty history, every other node gives error 404. -/
def exDatasource : NodeDatasource Nat Nat := fun calls id =>
  (calls + 1,
    if id = 5 then Except.ok [exNode 5 2, exNode 5 1]
    else if id = 6 then Except.ok []
    else Except.error 404)

/-- A run of `convertWayData` on the ways at addresses 0, 1, 2. -/
def exConvert : ConvResult Nat Nat Nat :=
  convertWayData exHeap [0, 1, 2] exDatasource 0


/-- A `mapErrors` to tell a mapped error from an unmapped one. -/
def exMapErrors : Option Nat → Option Nat := fun err => err.map (· + 1000)

/-- A `core.Compute` that writes nothing and answers, for parent number `i`,
the update list `exUpdates i`. -/
def exCompute : ComputeFn Nat Nat := fun parents _ _ _ heap =>
  (heap, Except.ok ((List.range parents.length).map fun i => exUpdates (i : Int)))

/-- An option that succeeds. -/
def exOptionOk : WaysOption Nat Nat := fun computeOpts => (computeOpts + 1, none)

/-- An option that fails with error 13. -/
def exOptionErr : WaysOption Nat Nat := fun computeOpts => (computeOpts + 10, some 13)

/-- A run of `Ways` on the ways at addresses 0, 1, 2 with one option. -/
def exRun : WaysResult Nat Nat Nat :=
  Ways exHeap [0, 1, 2] exDatasource 0 5 [exOptionOk] 0 exCompute exMapErrors

/-- The index of `exRun`. -/
def exHistories : Histories :=
  { data := [({ Kind := FeatureType.node, Ref := 5 },
               some [some { Index := 0, Node := exNode 5 1 },
                     some { Index := 1, Node := exNode 5 2 }]),
             ({ Kind := FeatureType.node, Ref := 6 }, some [])] }

/-- A run of `Ways` in which the history of node 7 cannot be fetched. -/
def exRunNoHistory : WaysResult Nat Nat Nat :=
  Ways exHeap [0, 3] exDatasource 0 5 [exOptionOk] 0 exCompute exMapErrors

/-- A run of `Ways` in which the second of three options fails. -/
def exRunBadOption : WaysResult Nat Nat Nat :=
  Ways exHeap [0, 1, 2] exDatasource 0 5 [exOptionOk, exOptionErr, exOptionOk] 0 exCompute
    exMapErrors

/-- A run of `Ways` on a slice that holds the way at address 2 twice. -/
def exRunAliased : WaysResult Nat Nat Nat :=
  Ways exHeap [2, 2] exDatasource 0 5 [] 0 exCompute exMapErrors

/-! # Theorems -/

/-! ## Sorting -/

theorem idVersionLE_total (a b : Int × Int) : idVersionLE a b ∨ idVersionLE b a := by
  unfold idVersionLE
  omega

theorem idVersionLE_trans {a b c : Int × Int} (hab : idVersionLE a b) (hbc : idVersionLE b c) :
    idVersionLE a c := by
  unfold idVersionLE at *
  omega

theorem SortByIDVersion_perm {α : Type} (key : α → Int × Int) (l : List α) :
    (SortByIDVersion key l).Perm l :=
  List.perm_insertionSort (byIDVersion key) l

theorem SortByIDVersion_length {α : Type} (key : α → Int × Int) (l : List α) :
    (SortByIDVersion key l).length = l.length :=
  List.length_insertionSort (byIDVersion key) l

theorem SortByIDVersion_sorted {α : Type} (key : α → Int × Int) (l : List α) :
    List.Sorted (byIDVersion key) (SortByIDVersion key l) :=
  @List.sorted_insertionSort α (byIDVersion key) _
    ⟨fun a b => idVersionLE_total (key a) (key b)⟩
    ⟨fun _ _ _ hab hbc => idVersionLE_trans hab hbc⟩ l

/-! ## nodesToChildList -/

theorem childrenFrom_spec (l : List Node) : ∀ i : Nat,
    ∃ cs : List childNode,
      childrenFrom i l = cs.map some ∧
      cs.map childNode.Node = l ∧
      ∀ k (hk : k < cs.length), (cs[k]).Index = ((i + k : Nat) : Int) := by
  induction l with
  | nil => intro i; exact ⟨[], rfl, rfl, fun k hk => absurd hk (by simp)⟩
  | cons n rest ih =>
    intro i
    obtain ⟨cs, h1, h2, h3⟩ := ih (i + 1)
    refine ⟨{ Index := (i : Int), Node := n } :: cs, ?_, ?_, ?_⟩
    · simp [childrenFrom, h1]
    · simp [h2]
    · intro k hk
      cases k with
      | zero => simp
      | succ k =>
        have hk1 : k < cs.length := by simpa using hk
        have := h3 k hk1
        simp only [List.getElem_cons_succ]
        rw [this]
        congr 1
        omega

theorem setChildrenLoop_spec : ∀ (L : List Child) (i : Nat) (nodes : List WayNode),
    i + L.length ≤ nodes.length →
    ∃ ns, setChildrenLoop L i nodes = some ns ∧ ns.length = nodes.length ∧
      ∀ k, ns[k]? = if k < i then nodes[k]? else (nodes[k]?).map (patchedNode L[k - i]?) := by
  intro L
  induction L with
  | nil =>
    intro i nodes _
    refine ⟨nodes, rfl, rfl, fun k => ?_⟩
    split
    · rfl
    · cases h : nodes[k]? <;> simp [patchedNode]
  | cons c rest ih =>
    intro i nodes hlen
    simp only [List.length_cons] at hlen
    cases c with
    | none =>
      obtain ⟨ns, h1, h2, h3⟩ := ih (i + 1) nodes (by omega)
      refine ⟨ns, by simpa [setChildrenLoop] using h1, h2, fun k => ?_⟩
      rw [h3 k]
      by_cases hk : k < i
      · simp [hk, Nat.lt_succ_of_lt hk]
      · by_cases hki : k = i
        · subst hki
          cases h : nodes[k]? <;> simp [patchedNode]
        · have hgt : ¬ k < i + 1 := by omega
          have hsub : k - i = (k - (i + 1)) + 1 := by omega
          simp [hk, hgt, hsub]
    | some child =>
      have hi : i < nodes.length := by omega
      have hget : nodes[i]? = some nodes[i] := List.getElem?_eq_getElem hi
      obtain ⟨ns, h1, h2, h3⟩ := ih (i + 1) (nodes.set i (copyNode nodes[i] child.Node))
        (by simp; omega)
      refine ⟨ns, ?_, by simpa using h2, fun k => ?_⟩
      · simp only [setChildrenLoop, hget]
        exact h1
      · rw [h3 k]
        by_cases hk : k < i
        · have hne : i ≠ k := by omega
          simp [hk, Nat.lt_succ_of_lt hk, List.getElem?_set_ne hne]
        · by_cases hki : k = i
          · subst hki
            simp [hget, patchedNode, List.getElem?_set_self, hi]
          · have hgt : ¬ k < i + 1 := by omega
            have hsub : k - i = (k - (i + 1)) + 1 := by omega
            have hne : i ≠ k := by omega
            simp [hk, hgt, hsub, List.getElem?_set_ne hne]

/-- C3: `SetChildren` with a child list no longer than the way's node list
does not panic, keeps the length of the node list, replaces at every position
with a non-nil child the Version, ChangesetID, Lat and Lon by those of the
child's node (the ID stays), leaves every other position as it was, and so
leaves `Refs()` unchanged. -/
theorem SetChildren_copies_node_data (w : parentWay) (heap : Heap) (list : ChildList)
    (hlen : (list.getD []).length ≤ (heap w.Way).Nodes.length) :
    ∃ w1 heap1, w.SetChildren list heap = some (w1, heap1) ∧
      w1.Way = w.Way ∧ w1.Children = list ∧
      (heap1 w.Way).Nodes.length = (heap w.Way).Nodes.length ∧
      (∀ i (hi : i < (heap w.Way).Nodes.length),
        (∀ child, (list.getD [])[i]? = some (some child) →
          (heap1 w.Way).Nodes[i]? = some
            { ID := ((heap w.Way).Nodes[i]).ID, Version := child.Node.Version,
              ChangesetID := child.Node.ChangesetID, Lat := child.Node.Lat,
              Lon := child.Node.Lon }) ∧
        ((list.getD [])[i]? = some none ∨ (list.getD [])[i]? = none →
          (heap1 w.Way).Nodes[i]? = some ((heap w.Way).Nodes[i]))) ∧
      w1.Refs heap1 = w.Refs heap := by
  obtain ⟨ns, h1, h2, h3⟩ := setChildrenLoop_spec (list.getD []) 0 (heap w.Way).Nodes
    (by omega)
  have hnodes : ((heap.set w.Way { heap w.Way with Nodes := ns }) w.Way).Nodes = ns := by
    simp [Heap.set]
  have hk : ∀ k : Nat, ns[k]? = ((heap w.Way).Nodes[k]?).map (patchedNode (list.getD [])[k]?) := by
    intro k
    simpa using h3 k
  refine ⟨{ w with children := list }, heap.set w.Way { heap w.Way with Nodes := ns },
    ?_, rfl, rfl, ?_, ?_, ?_⟩
  · simp [parentWay.SetChildren, h1]
  · rw [hnodes]; exact h2
  · intro i hi
    rw [hnodes, hk i, List.getElem?_eq_getElem hi]
    refine ⟨fun child hc => ?_, fun hc => ?_⟩
    · simp [hc, patchedNode, copyNode]
    · rcases hc with hc | hc <;> simp [hc, patchedNode]
  · simp only [parentWay.Refs, WayNodes.FeatureIDs]
    rw [hnodes]
    apply List.ext_getElem?
    intro k
    simp only [List.getElem?_map, hk k]
    cases hN : (heap w.Way).Nodes[k]? with
    | none => rfl
    | some wn =>
      simp only [Option.map_some']
      cases hL : (list.getD [])[k]? with
      | none => rfl
      | some c =>
        cases c with
        | none => rfl
        | some child => rfl

/-- Witness of C3: the way at address 0 (nodes 5 and 6) receives a nil entry and
a child carrying version 3 of node 6. -/
theorem SetChildren_copies_node_data_witness :
    ((some [none, some { Index := 0, Node := exNode 6 3 }] : ChildList).getD []).length
        ≤ (exHeap 0).Nodes.length ∧
    ∃ w1 heap1,
      parentWay.SetChildren { Way := 0, children := none }
        (some [none, some { Index := 0, Node := exNode 6 3 }]) exHeap = some (w1, heap1) ∧
      w1.Way = 0 ∧ w1.Children = some [none, some { Index := 0, Node := exNode 6 3 }] ∧
      (heap1 0).Nodes.length = (exHeap 0).Nodes.length ∧
      (∀ i (hi : i < (exHeap 0).Nodes.length),
        (∀ child, ((some [none, some { Index := 0, Node := exNode 6 3 }] : ChildList).getD [])[i]?
            = some (some child) →
          (heap1 0).Nodes[i]? = some
            { ID := ((exHeap 0).Nodes[i]).ID, Version := child.Node.Version,
              ChangesetID := child.Node.ChangesetID, Lat := child.Node.Lat,
              Lon := child.Node.Lon }) ∧
        (((some [none, some { Index := 0, Node := exNode 6 3 }] : ChildList).getD [])[i]?
            = some none ∨
          ((some [none, some { Index := 0, Node := exNode 6 3 }] : ChildList).getD [])[i]?
            = none →
          (heap1 0).Nodes[i]? = some ((exHeap 0).Nodes[i]))) ∧
      parentWay.Refs w1 heap1 = parentWay.Refs { Way := 0, children := none } exHeap :=
  ⟨by decide,
   SetChildren_copies_node_data { Way := 0, children := none } exHeap
     (some [none, some { Index := 0, Node := exNode 6 3 }]) (by decide)⟩

/-- C4: `nodesToChildList` returns a non-nil child list of the length of its
input, all of whose entries are non-nil children; their nodes are a
permutation of the input in (ID, then Version) order, and the child at
position `k` carries `Index = k`. -/
theorem nodesToChildList_sorted_indexed (nodes : List Node) :
    ∃ cs : List childNode,
      (nodesToChildList nodes).list = some (cs.map some) ∧
      cs.length = nodes.length ∧
      (cs.map childNode.Node).Perm nodes ∧
      List.Sorted (byIDVersion Node.key) (cs.map childNode.Node) ∧
      ∀ k (hk : k < cs.length), (cs[k]).Index = (k : Int) := by
  obtain ⟨cs, h1, h2, h3⟩ := childrenFrom_spec (SortByIDVersion Node.key nodes) 0
  refine ⟨cs, ?_, ?_, ?_, ?_, ?_⟩
  · simp [nodesToChildList, h1]
  · have := congrArg List.length h2
    simpa [SortByIDVersion_length] using this
  · rw [h2]; exact SortByIDVersion_perm _ _
  · rw [h2]; exact SortByIDVersion_sorted _ _
  · intro k hk
    simpa using h3 k hk

/-- C10: `Committed()` is total: it is the zero time when the way's `Committed`
pointer is nil and the time pointed to otherwise. -/
theorem Committed_total (w : parentWay) (heap : Heap) :
    ((heap w.Way).Committed = none → w.Committed heap = Time.zero) ∧
    (∀ t, (heap w.Way).Committed = some t → w.Committed heap = t) := by
  unfold parentWay.Committed
  constructor
  · intro h; rw [h]
  · intro t h; rw [h]

/-! ## The history index -/

theorem Histories.Get_Set (h : Histories) (id fid : FeatureID) (list : ChildList) :
    (h.Set id list).Get fid = if fid = id then list else h.Get fid := by
  unfold Histories.Get Histories.Set
  by_cases hf : fid = id
  · subst hf
    simp [List.lookup_cons]
  · have : (fid == id) = false := by simpa using hf
    simp [List.lookup_cons, this, hf]

theorem Histories.Get_empty (fid : FeatureID) : Histories.empty.Get fid = none := by
  simp [Histories.Get, Histories.empty]

/-! ## The log -/

theorem fetchedIDs_append {E O : Type} (l1 l2 : List (Event E O)) :
    fetchedIDs (l1 ++ l2) = fetchedIDs l1 ++ fetchedIDs l2 := by
  induction l1 with
  | nil => rfl
  | cons ev rest ih =>
    cases ev <;> simp [fetchedIDs, ih]

theorem mem_fetchedIDs_of_mem {E O : Type} {log : List (Event E O)} {id : Int}
    {resp : Except E (List Node)} {after : List Node}
    (h : Event.nodeHistory id resp after ∈ log) : id ∈ fetchedIDs log := by
  induction log with
  | nil => cases h
  | cons ev rest ih =>
    rcases List.mem_cons.1 h with h1 | h1
    · subst h1; simp [fetchedIDs]
    · have := ih h1
      cases ev <;> simp [fetchedIDs, this]

theorem FetchesOk.append {E O : Type} {l1 l2 : List (Event E O)}
    (h1 : FetchesOk l1) (h2 : FetchesOk l2) : FetchesOk (l1 ++ l2) := by
  intro ev hev
  rcases List.mem_append.1 hev with h | h
  · exact h1 ev h
  · exact h2 ev h

theorem IndexInv.init {σ E O : Type} (ds : σ) :
    IndexInv ({ histories := Histories.empty, ds := ds, log := [] } : ConvState σ E O) where
  fetchesOk := by intro ev hev; cases hev
  nodup := by simp [fetchedIDs]
  keys := by intro fid; simp [Histories.Get_empty, fetchedIDs]
  entries := by intro id nodes after h; cases h

/-- One successful fetch keeps the invariant. -/
theorem IndexInv.step {σ E O : Type} {st : ConvState σ E O} (inv : IndexInv st)
    (id : Int) (nodes : List Node) (ds1 : σ)
    (hnew : (st.histories.Get { Kind := FeatureType.node, Ref := id }).isSome = false) :
    IndexInv ({ histories := st.histories.Set { Kind := FeatureType.node, Ref := id }
                  (nodesToChildList nodes).list,
                ds := ds1,
                log := st.log ++ [Event.nodeHistory id (Except.ok nodes)
                  (nodesToChildList nodes).nodes] } : ConvState σ E O) := by
  have hnotin : id ∉ fetchedIDs st.log := by
    intro hin
    have := (inv.keys { Kind := FeatureType.node, Ref := id }).2 ⟨rfl, hin⟩
    rw [hnew] at this
    cases this
  refine ⟨?_, ?_, ?_, ?_⟩
  · apply FetchesOk.append inv.fetchesOk
    intro ev hev
    simp only [List.mem_singleton] at hev
    subst hev
    exact ⟨rfl, rfl⟩
  · simp only [fetchedIDs_append, fetchedIDs]
    exact List.Nodup.append inv.nodup (List.nodup_singleton id) (by simpa using hnotin)
  · intro fid
    simp only [Histories.Get_Set, fetchedIDs_append, fetchedIDs, List.mem_append,
      List.mem_singleton]
    by_cases hf : fid = { Kind := FeatureType.node, Ref := id }
    · subst hf
      simp [nodesToChildList]
    · simp only [hf, if_false]
      rw [inv.keys fid]
      constructor
      · rintro ⟨h1, h2⟩; exact ⟨h1, Or.inl h2⟩
      · rintro ⟨h1, h2 | h2⟩
        · exact ⟨h1, h2⟩
        · exfalso; apply hf
          cases fid
          simp_all
  · intro id2 nodes2 after2 hmem
    simp only [List.mem_append, List.mem_singleton] at hmem
    rcases hmem with hmem | hmem
    · have hne : id2 ≠ id := by
        intro heq
        subst heq
        exact hnotin (mem_fetchedIDs_of_mem hmem)
      have hfne : ({ Kind := FeatureType.node, Ref := id2 } : FeatureID)
          ≠ { Kind := FeatureType.node, Ref := id } := by
        intro h; apply hne; injection h
      simp only [Histories.Get_Set, hfne, if_false]
      exact inv.entries id2 nodes2 after2 hmem
    · injection hmem with h1 h2 h3
      injection h2 with h2
      subst h1 h2 h3
      simp [Histories.Get_Set]

/-! ## convertWayData -/

theorem fetchWayNodes_ok {σ E O : Type} (NodeHistory : NodeDatasource σ E) :
    ∀ (nodes : List WayNode) (st st1 : ConvState σ E O), IndexInv st →
      fetchWayNodes NodeHistory nodes st = (st1, none) →
      IndexInv st1 ∧
      ∀ id, id ∈ fetchedIDs st1.log ↔ (id ∈ fetchedIDs st.log ∨ ∃ n ∈ nodes, n.ID = id) := by
  intro nodes
  induction nodes with
  | nil =>
    intro st st1 inv h
    simp only [fetchWayNodes, Prod.mk.injEq, and_true] at h
    subst h
    exact ⟨inv, by simp⟩
  | cons n rest ih =>
    intro st st1 inv h
    by_cases hget : (st.histories.Get { Kind := FeatureType.node, Ref := n.ID }).isSome = true
    · simp only [fetchWayNodes, hget, if_true] at h
      obtain ⟨inv1, hids⟩ := ih st st1 inv h
      refine ⟨inv1, fun id => ?_⟩
      rw [hids id]
      have hn : n.ID ∈ fetchedIDs st.log := ((inv.keys _).1 hget).2
      constructor
      · rintro (h1 | ⟨m, hm, rfl⟩)
        · exact Or.inl h1
        · exact Or.inr ⟨m, List.mem_cons_of_mem _ hm, rfl⟩
      · rintro (h1 | ⟨m, hm, rfl⟩)
        · exact Or.inl h1
        · rcases List.mem_cons.1 hm with rfl | hm
          · exact Or.inl hn
          · exact Or.inr ⟨m, hm, rfl⟩
    · have hget2 : (st.histories.Get { Kind := FeatureType.node, Ref := n.ID }).isSome = false := by
        simpa using hget
      cases hresp : (NodeHistory st.ds n.ID).2 with
      | error err =>
        simp [fetchWayNodes, hget2, hresp] at h
      | ok fetched =>
        simp only [fetchWayNodes, hget2, hresp, Bool.false_eq_true, if_false] at h
        obtain ⟨inv1, hids⟩ := ih _ st1 (IndexInv.step inv n.ID fetched _ hget2) h
        refine ⟨inv1, fun id => ?_⟩
        rw [hids id]
        simp only [fetchedIDs_append, fetchedIDs, List.mem_append, List.mem_singleton,
          List.mem_cons, List.not_mem_nil, or_false]
        constructor
        · rintro ((h1 | rfl) | ⟨m, hm, rfl⟩)
          · exact Or.inl h1
          · exact Or.inr ⟨n, Or.inl rfl, rfl⟩
          · exact Or.inr ⟨m, Or.inr hm, rfl⟩
        · rintro (h1 | ⟨m, rfl | hm, rfl⟩)
          · exact Or.inl (Or.inl h1)
          · exact Or.inl (Or.inr rfl)
          · exact Or.inr ⟨m, hm, rfl⟩

theorem fetchWayNodes_err {σ E O : Type} (NodeHistory : NodeDatasource σ E) :
    ∀ (nodes : List WayNode) (st st1 : ConvState σ E O) (err : E), IndexInv st →
      fetchWayNodes NodeHistory nodes st = (st1, some err) →
      ∃ (pre : ConvState σ E O) (id : Int), IndexInv pre ∧
        st1.log = pre.log ++ [Event.nodeHistory id (Except.error err) []] := by
  intro nodes
  induction nodes with
  | nil =>
    intro st st1 err _ h
    simp [fetchWayNodes] at h
  | cons n rest ih =>
    intro st st1 err inv h
    by_cases hget : (st.histories.Get { Kind := FeatureType.node, Ref := n.ID }).isSome = true
    · simp only [fetchWayNodes, hget, if_true] at h
      exact ih st st1 err inv h
    · have hget2 : (st.histories.Get { Kind := FeatureType.node, Ref := n.ID }).isSome = false := by
        simpa using hget
      cases hresp : (NodeHistory st.ds n.ID).2 with
      | error err2 =>
        simp only [fetchWayNodes, hget2, hresp, Bool.false_eq_true, if_false,
          Prod.mk.injEq, Option.some.injEq] at h
        obtain ⟨h1, h2⟩ := h
        subst h1 h2
        exact ⟨st, n.ID, inv, rfl⟩
      | ok fetched =>
        simp only [fetchWayNodes, hget2, hresp, Bool.false_eq_true, if_false] at h
        exact ih _ st1 err (IndexInv.step inv n.ID fetched _ hget2) h

theorem convertLoop_ok {σ E O : Type} (NodeHistory : NodeDatasource σ E) (heap : Heap) :
    ∀ (ws : List WayPtr) (parents ps : List parentWay) (st st1 : ConvState σ E O),
      IndexInv st →
      convertLoop NodeHistory heap ws parents st = ((ps, st1), none) →
      IndexInv st1 ∧
      ps = parents ++ ws.map (fun w => { Way := w, children := none }) ∧
      ∀ id, id ∈ fetchedIDs st1.log ↔ (id ∈ fetchedIDs st.log ∨ Referenced heap ws id) := by
  intro ws
  induction ws with
  | nil =>
    intro parents ps st st1 inv h
    simp only [convertLoop, Prod.mk.injEq, and_true] at h
    obtain ⟨h1, h2⟩ := h
    subst h1 h2
    exact ⟨inv, by simp, by simp [Referenced]⟩
  | cons w rest ih =>
    intro parents ps st st1 inv h
    cases hf : fetchWayNodes NodeHistory (heap w).Nodes st with
    | mk st2 res =>
      cases res with
      | some err => simp [convertLoop, hf] at h
      | none =>
        simp only [convertLoop, hf] at h
        obtain ⟨inv2, hids2⟩ := fetchWayNodes_ok NodeHistory _ st st2 inv hf
        obtain ⟨inv1, hps, hids⟩ := ih _ ps st2 st1 inv2 h
        refine ⟨inv1, by simp [hps], fun id => ?_⟩
        rw [hids id, hids2 id]
        simp only [Referenced, List.mem_cons, exists_eq_or_imp]
        exact or_assoc

theorem convertLoop_err {σ E O : Type} (NodeHistory : NodeDatasource σ E) (heap : Heap) :
    ∀ (ws : List WayPtr) (parents ps : List parentWay) (st st1 : ConvState σ E O) (err : E),
      IndexInv st →
      convertLoop NodeHistory heap ws parents st = ((ps, st1), some err) →
      ∃ (pre : ConvState σ E O) (id : Int), IndexInv pre ∧
        st1.log = pre.log ++ [Event.nodeHistory id (Except.error err) []] := by
  intro ws
  induction ws with
  | nil =>
    intro parents ps st st1 err _ h
    simp [convertLoop] at h
  | cons w rest ih =>
    intro parents ps st st1 err inv h
    cases hf : fetchWayNodes NodeHistory (heap w).Nodes st with
    | mk st2 res =>
      cases res with
      | some err2 =>
        simp only [convertLoop, hf, Prod.mk.injEq, Option.some.injEq] at h
        obtain ⟨⟨_, h2⟩, h3⟩ := h
        subst h2 h3
        exact fetchWayNodes_err NodeHistory _ st st2 err2 inv hf
      | none =>
        simp only [convertLoop, hf] at h
        obtain ⟨inv2, _⟩ := fetchWayNodes_ok NodeHistory _ st st2 inv hf
        exact ih _ ps st2 st1 err inv2 h

theorem Referenced_perm {heap : Heap} {l1 l2 : List WayPtr} (h : l1.Perm l2) (id : Int) :
    Referenced heap l1 id ↔ Referenced heap l2 id := by
  unfold Referenced
  constructor
  · rintro ⟨w, hw, rest⟩; exact ⟨w, h.mem_iff.1 hw, rest⟩
  · rintro ⟨w, hw, rest⟩; exact ⟨w, h.mem_iff.2 hw, rest⟩

theorem convertWayData_ways {σ E O : Type} (heap : Heap) (ways : List WayPtr)
    (NodeHistory : NodeDatasource σ E) (ds : σ) :
    (convertWayData heap ways NodeHistory ds : ConvResult σ E O).ways
      = SortByIDVersion (wayKey heap) ways := by
  unfold convertWayData
  cases hl : convertLoop NodeHistory heap (SortByIDVersion (wayKey heap) ways) []
      ({ histories := Histories.empty, ds := ds, log := [] } : ConvState σ E O) with
  | mk pst res =>
    obtain ⟨ps, st⟩ := pst
    cases res <;> simp only [hl]

theorem convertWayData_ok {σ E O : Type} (heap : Heap) (ways : List WayPtr)
    (NodeHistory : NodeDatasource σ E) (ds : σ) (parents : List parentWay)
    (histories : Histories)
    (h : (convertWayData heap ways NodeHistory ds : ConvResult σ E O).result
      = Except.ok (parents, histories)) :
    parents = (SortByIDVersion (wayKey heap) ways).map
        (fun w => { Way := w, children := none }) ∧
    IndexInv ({ histories := histories,
                ds := (convertWayData heap ways NodeHistory ds : ConvResult σ E O).ds,
                log := (convertWayData heap ways NodeHistory ds : ConvResult σ E O).log }
              : ConvState σ E O) ∧
    ∀ id, id ∈ fetchedIDs (convertWayData heap ways NodeHistory ds : ConvResult σ E O).log
      ↔ Referenced heap ways id := by
  unfold convertWayData at h ⊢
  cases hl : convertLoop NodeHistory heap (SortByIDVersion (wayKey heap) ways) []
      ({ histories := Histories.empty, ds := ds, log := [] } : ConvState σ E O) with
  | mk pst res =>
    obtain ⟨ps, st⟩ := pst
    cases res with
    | some err => simp [hl] at h
    | none =>
      simp only [hl, Except.ok.injEq, Prod.mk.injEq] at h ⊢
      obtain ⟨h1, h2⟩ := h
      subst h1 h2
      obtain ⟨inv1, hps, hids⟩ := convertLoop_ok NodeHistory heap _ [] ps _ st
        (IndexInv.init ds) hl
      refine ⟨by simpa using hps, inv1, fun id => ?_⟩
      rw [hids id]
      simp only [fetchedIDs, List.not_mem_nil, false_or]
      exact Referenced_perm (SortByIDVersion_perm _ _) id

theorem convertWayData_err {σ E O : Type} (heap : Heap) (ways : List WayPtr)
    (NodeHistory : NodeDatasource σ E) (ds : σ) (err : E)
    (h : (convertWayData heap ways NodeHistory ds : ConvResult σ E O).result
      = Except.error err) :
    ∃ (pre : ConvState σ E O) (id : Int), IndexInv pre ∧
      (convertWayData heap ways NodeHistory ds : ConvResult σ E O).log
        = pre.log ++ [Event.nodeHistory id (Except.error err) []] := by
  unfold convertWayData at h ⊢
  cases hl : convertLoop NodeHistory heap (SortByIDVersion (wayKey heap) ways) []
      ({ histories := Histories.empty, ds := ds, log := [] } : ConvState σ E O) with
  | mk pst res =>
    obtain ⟨ps, st⟩ := pst
    cases res with
    | none => simp [hl] at h
    | some err2 =>
      simp only [hl, Except.error.injEq] at h ⊢
      subst h
      exact convertLoop_err NodeHistory heap _ [] ps _ st err2 (IndexInv.init ds) hl

/-- When no fetch of the log failed, `convertWayData` returned its parents and
index. -/
theorem convertWayData_result_of_fetches {σ E O : Type} (heap : Heap) (ways : List WayPtr)
    (NodeHistory : NodeDatasource σ E) (ds : σ)
    (hfetch : ∀ ev ∈ (convertWayData heap ways NodeHistory ds : ConvResult σ E O).log,
      ev.fetchFailed = false) :
    ∃ parents histories,
      (convertWayData heap ways NodeHistory ds : ConvResult σ E O).result
        = Except.ok (parents, histories) := by
  cases hr : (convertWayData heap ways NodeHistory ds : ConvResult σ E O).result with
  | ok v => exact ⟨v.1, v.2, rfl⟩
  | error err =>
    obtain ⟨pre, id, _, hlog⟩ := convertWayData_err heap ways NodeHistory ds err hr
    have := hfetch (Event.nodeHistory id (Except.error err) []) (by rw [hlog]; simp)
    simp [Event.fetchFailed] at this

/-! ## The calls of the datasource -/

theorem newIDs_congr : ∀ (l s1 s2 : List Int), (∀ x, x ∈ s1 ↔ x ∈ s2) →
    newIDs s1 l = newIDs s2 l := by
  intro l
  induction l with
  | nil => intro s1 s2 _; rfl
  | cons a rest ih =>
    intro s1 s2 h
    by_cases ha : a ∈ s1
    · have ha2 : a ∈ s2 := (h a).1 ha
      simp only [newIDs, ha, ha2, if_true]
      exact ih s1 s2 h
    · have ha2 : a ∉ s2 := fun hc => ha ((h a).2 hc)
      simp only [newIDs, ha, ha2, if_false]
      rw [ih (a :: s1) (a :: s2)]
      intro x
      simp only [List.mem_cons, h x]

theorem newIDs_append : ∀ (l1 l2 seen : List Int),
    newIDs seen (l1 ++ l2) = newIDs seen l1 ++ newIDs (seen ++ newIDs seen l1) l2 := by
  intro l1
  induction l1 with
  | nil => intro l2 seen; simp [newIDs]
  | cons a rest ih =>
    intro l2 seen
    rw [List.cons_append]
    by_cases ha : a ∈ seen
    · simp only [newIDs, ha, if_true]
      exact ih l2 seen
    · simp only [newIDs, ha, if_false]
      rw [ih l2 (a :: seen), List.cons_append]
      congr 2
      apply newIDs_congr
      intro x
      simp only [List.mem_append, List.mem_cons]
      tauto

theorem mem_newIDs : ∀ (l seen : List Int) (x : Int),
    x ∈ newIDs seen l ↔ (x ∈ l ∧ x ∉ seen) := by
  intro l
  induction l with
  | nil => intro seen x; simp [newIDs]
  | cons a rest ih =>
    intro seen x
    by_cases ha : a ∈ seen
    · simp only [newIDs, ha, if_true, ih seen x, List.mem_cons]
      constructor
      · rintro ⟨h1, h2⟩; exact ⟨Or.inr h1, h2⟩
      · rintro ⟨h1 | h1, h2⟩
        · subst h1; exact absurd ha h2
        · exact ⟨h1, h2⟩
    · simp only [newIDs, ha, if_false, List.mem_cons, ih (a :: seen) x]
      constructor
      · rintro (h1 | ⟨h1, h2⟩)
        · subst h1; exact ⟨Or.inl rfl, ha⟩
        · exact ⟨Or.inr h1, fun hc => h2 (Or.inr hc)⟩
      · rintro ⟨h1 | h1, h2⟩
        · exact Or.inl h1
        · by_cases hx : x = a
          · exact Or.inl hx
          · refine Or.inr ⟨h1, ?_⟩
            rintro (hc | hc)
            · exact hx hc
            · exact h2 hc

theorem nodup_newIDs : ∀ (l seen : List Int), (newIDs seen l).Nodup := by
  intro l
  induction l with
  | nil => intro seen; simp [newIDs]
  | cons a rest ih =>
    intro seen
    by_cases ha : a ∈ seen
    · simp only [newIDs, ha, if_true]
      exact ih seen
    · simp only [newIDs, ha, if_false, List.nodup_cons]
      refine ⟨?_, ih (a :: seen)⟩
      intro hc
      exact ((mem_newIDs rest (a :: seen) a).1 hc).2 (List.mem_cons_self _ _)

theorem mem_referencedIDs (heap : Heap) : ∀ (ways : List WayPtr) (id : Int),
    id ∈ referencedIDs heap ways ↔ Referenced heap ways id := by
  intro ways
  induction ways with
  | nil => intro id; simp [referencedIDs, Referenced]
  | cons w rest ih =>
    intro id
    simp only [referencedIDs, List.mem_append, List.mem_map, ih id, Referenced, List.mem_cons,
      exists_eq_or_imp]

theorem replayFetches_append {σ E O : Type} (NodeHistory : NodeDatasource σ E) :
    ∀ (l1 l2 : List Int) (ds : σ),
    (replayFetches NodeHistory ds (l1 ++ l2) : Replay σ E O) =
      match (replayFetches NodeHistory ds l1 : Replay σ E O).err with
      | some _ => replayFetches NodeHistory ds l1
      | none =>
        { ds := (replayFetches NodeHistory
            (replayFetches NodeHistory ds l1 : Replay σ E O).ds l2 : Replay σ E O).ds,
          log := (replayFetches NodeHistory ds l1 : Replay σ E O).log
            ++ (replayFetches NodeHistory
              (replayFetches NodeHistory ds l1 : Replay σ E O).ds l2 : Replay σ E O).log,
          err := (replayFetches NodeHistory
            (replayFetches NodeHistory ds l1 : Replay σ E O).ds l2 : Replay σ E O).err } := by
  intro l1
  induction l1 with
  | nil => intro l2 ds; simp [replayFetches]
  | cons a rest ih =>
    intro l2 ds
    rw [List.cons_append]
    cases hr : (NodeHistory ds a).2 with
    | error err => simp [replayFetches, hr]
    | ok nodes =>
      simp only [replayFetches, hr]
      rw [ih l2 (NodeHistory ds a).1]
      cases he : (replayFetches NodeHistory (NodeHistory ds a).1 rest : Replay σ E O).err with
      | some e => simp [he]
      | none => simp

theorem fetchedIDs_replayFetches {σ E O : Type} (NodeHistory : NodeDatasource σ E) :
    ∀ (l : List Int) (ds : σ),
    (replayFetches NodeHistory ds l : Replay σ E O).err = none →
    fetchedIDs (replayFetches NodeHistory ds l : Replay σ E O).log = l := by
  intro l
  induction l with
  | nil => intro ds _; rfl
  | cons a rest ih =>
    intro ds h
    cases hr : (NodeHistory ds a).2 with
    | error err => simp [replayFetches, hr] at h
    | ok nodes =>
      simp only [replayFetches, hr] at h ⊢
      simp only [fetchedIDs, ih _ h]

theorem replayFetches_answers {σ E O : Type} (NodeHistory : NodeDatasource σ E) :
    ∀ (l : List Int) (ds : σ) (id : Int) (resp : Except E (List Node)) (after : List Node),
    Event.nodeHistory id resp after ∈ (replayFetches NodeHistory ds l : Replay σ E O).log →
    ∃ s, (NodeHistory s id).2 = resp := by
  intro l
  induction l with
  | nil => intro ds id resp after h; simp [replayFetches] at h
  | cons a rest ih =>
    intro ds id resp after h
    cases hr : (NodeHistory ds a).2 with
    | error err =>
      simp only [replayFetches, hr, List.mem_singleton] at h
      injection h with h1 h2 h3
      subst h1 h2
      exact ⟨ds, hr⟩
    | ok nodes =>
      simp only [replayFetches, hr, List.mem_cons] at h
      rcases h with h | h
      · injection h with h1 h2 h3
        subst h1 h2
        exact ⟨ds, hr⟩
      · exact ih _ id resp after h

theorem fetchWayNodes_replay {σ E O : Type} (NodeHistory : NodeDatasource σ E) :
    ∀ (nodes : List WayNode) (st : ConvState σ E O), IndexInv st →
      (fetchWayNodes NodeHistory nodes st).1.ds
        = (replayFetches NodeHistory st.ds
            (newIDs (fetchedIDs st.log) (nodes.map WayNode.ID)) : Replay σ E O).ds ∧
      (fetchWayNodes NodeHistory nodes st).1.log
        = st.log ++ (replayFetches NodeHistory st.ds
            (newIDs (fetchedIDs st.log) (nodes.map WayNode.ID)) : Replay σ E O).log ∧
      (fetchWayNodes NodeHistory nodes st).2
        = (replayFetches NodeHistory st.ds
            (newIDs (fetchedIDs st.log) (nodes.map WayNode.ID)) : Replay σ E O).err := by
  intro nodes
  induction nodes with
  | nil =>
    intro st _
    simp [fetchWayNodes, newIDs, replayFetches]
  | cons n rest ih =>
    intro st inv
    rw [List.map_cons]
    by_cases hget : (st.histories.Get { Kind := FeatureType.node, Ref := n.ID }).isSome = true
    · have hn : n.ID ∈ fetchedIDs st.log := ((inv.keys _).1 hget).2
      simp only [fetchWayNodes, hget, if_true, newIDs, hn]
      exact ih st inv
    · have hget2 : (st.histories.Get { Kind := FeatureType.node, Ref := n.ID }).isSome = false := by
        simpa using hget
      have hn : n.ID ∉ fetchedIDs st.log := by
        intro hin
        exact hget ((inv.keys { Kind := FeatureType.node, Ref := n.ID }).2 ⟨rfl, hin⟩)
      cases hresp : (NodeHistory st.ds n.ID).2 with
      | error err =>
        simp [fetchWayNodes, hget2, hresp, newIDs, hn, replayFetches]
      | ok fetched =>
        have inv1 := IndexInv.step inv n.ID fetched (NodeHistory st.ds n.ID).1 hget2
        obtain ⟨h1, h2, h3⟩ := ih _ inv1
        have hseen : newIDs (fetchedIDs (st.log ++ [Event.nodeHistory n.ID (Except.ok fetched)
              (nodesToChildList fetched).nodes] : List (Event E O))) (rest.map WayNode.ID)
            = newIDs (n.ID :: fetchedIDs st.log) (rest.map WayNode.ID) := by
          apply newIDs_congr
          intro x
          simp only [fetchedIDs_append, fetchedIDs, List.mem_append, List.mem_cons,
            List.not_mem_nil, or_false]
          tauto
        simp only [hseen] at h1 h2 h3
        simp only [fetchWayNodes, hget2, hresp, Bool.false_eq_true, if_false, newIDs, hn,
          replayFetches]
        refine ⟨h1, ?_, h3⟩
        rw [h2]
        simp

theorem convertLoop_replay {σ E O : Type} (NodeHistory : NodeDatasource σ E) (heap : Heap) :
    ∀ (ws : List WayPtr) (parents : List parentWay) (st : ConvState σ E O), IndexInv st →
      (convertLoop NodeHistory heap ws parents st).1.2.ds
        = (replayFetches NodeHistory st.ds
            (newIDs (fetchedIDs st.log) (referencedIDs heap ws)) : Replay σ E O).ds ∧
      (convertLoop NodeHistory heap ws parents st).1.2.log
        = st.log ++ (replayFetches NodeHistory st.ds
            (newIDs (fetchedIDs st.log) (referencedIDs heap ws)) : Replay σ E O).log ∧
      (convertLoop NodeHistory heap ws parents st).2
        = (replayFetches NodeHistory st.ds
            (newIDs (fetchedIDs st.log) (referencedIDs heap ws)) : Replay σ E O).err := by
  intro ws
  induction ws with
  | nil =>
    intro parents st _
    simp [convertLoop, referencedIDs, newIDs, replayFetches]
  | cons w rest ih =>
    intro parents st inv
    obtain ⟨f1, f2, f3⟩ := fetchWayNodes_replay NodeHistory (heap w).Nodes st inv
    simp only [referencedIDs, newIDs_append, replayFetches_append]
    cases hf : fetchWayNodes NodeHistory (heap w).Nodes st with
    | mk st2 res =>
      rw [hf] at f1 f2 f3
      simp only at f1 f2 f3
      cases res with
      | some err =>
        simp only [convertLoop, hf, ← f3]
        exact ⟨f1, f2, trivial⟩
      | none =>
        obtain ⟨inv2, -⟩ := fetchWayNodes_ok NodeHistory _ st st2 inv hf
        obtain ⟨h1, h2, h3⟩ := ih (parents ++ [{ Way := w, children := none }]) st2 inv2
        have hids : fetchedIDs st2.log
            = fetchedIDs st.log ++ newIDs (fetchedIDs st.log) ((heap w).Nodes.map WayNode.ID) := by
          rw [f2, fetchedIDs_append, fetchedIDs_replayFetches NodeHistory _ _ f3.symm]
        rw [hids, f1] at h1 h2 h3
        simp only [convertLoop, hf, ← f3]
        refine ⟨h1, ?_, h3⟩
        rw [h2, f2, List.append_assoc]

theorem convertWayData_replay {σ E O : Type} (heap : Heap) (ways : List WayPtr)
    (NodeHistory : NodeDatasource σ E) (ds : σ) :
    (convertWayData heap ways NodeHistory ds : ConvResult σ E O).ds
      = (replayFetches NodeHistory ds (requestOrder heap ways) : Replay σ E O).ds ∧
    (convertWayData heap ways NodeHistory ds : ConvResult σ E O).log
      = (replayFetches NodeHistory ds (requestOrder heap ways) : Replay σ E O).log ∧
    (∀ err, (convertWayData heap ways NodeHistory ds : ConvResult σ E O).result
        = Except.error err ↔
      (replayFetches NodeHistory ds (requestOrder heap ways) : Replay σ E O).err = some err) ∧
    ((∃ v, (convertWayData heap ways NodeHistory ds : ConvResult σ E O).result = Except.ok v) ↔
      (replayFetches NodeHistory ds (requestOrder heap ways) : Replay σ E O).err = none) := by
  obtain ⟨h1, h2, h3⟩ := convertLoop_replay NodeHistory heap
    (SortByIDVersion (wayKey heap) ways) []
    ({ histories := Histories.empty, ds := ds, log := [] } : ConvState σ E O) (IndexInv.init ds)
  simp only [fetchedIDs, List.nil_append] at h1 h2 h3
  unfold convertWayData requestOrder
  cases hl : convertLoop NodeHistory heap (SortByIDVersion (wayKey heap) ways) []
      ({ histories := Histories.empty, ds := ds, log := [] } : ConvState σ E O) with
  | mk pst res =>
    obtain ⟨ps, st⟩ := pst
    rw [hl] at h1 h2 h3
    simp only at h1 h2 h3
    cases res with
    | some err => simp [hl, ← h1, ← h2, ← h3]
    | none => simp [hl, ← h1, ← h2, ← h3]

theorem exists_event_of_mem_fetchedIDs {E O : Type} {log : List (Event E O)} {id : Int}
    (h : id ∈ fetchedIDs log) :
    ∃ resp after, Event.nodeHistory id resp after ∈ log := by
  induction log with
  | nil => simp [fetchedIDs] at h
  | cons ev rest ih =>
    cases ev with
    | nodeHistory id2 resp after =>
      simp only [fetchedIDs, List.mem_cons] at h
      rcases h with rfl | h
      · exact ⟨resp, after, List.mem_cons_self _ _⟩
      · obtain ⟨r, a, hm⟩ := ih h
        exact ⟨r, a, List.mem_cons_of_mem _ hm⟩
    | option idx arg err =>
      simp only [fetchedIDs] at h
      obtain ⟨r, a, hm⟩ := ih h
      exact ⟨r, a, List.mem_cons_of_mem _ hm⟩
    | compute ps hs t o resp =>
      simp only [fetchedIDs] at h
      obtain ⟨r, a, hm⟩ := ih h
      exact ⟨r, a, List.mem_cons_of_mem _ hm⟩

theorem exists_ok_event_of_mem_fetchedIDs {E O : Type} {log : List (Event E O)} {id : Int}
    (hok : FetchesOk log) (h : id ∈ fetchedIDs log) :
    ∃ nodes after, Event.nodeHistory id (Except.ok nodes) after ∈ log := by
  obtain ⟨resp, after, hm⟩ := exists_event_of_mem_fetchedIDs h
  cases resp with
  | error err =>
    have := (hok _ hm).2
    simp [Event.fetchFailed] at this
  | ok nodes => exact ⟨nodes, after, hm⟩

/-- C5: when all node-history fetches succeed, `convertWayData` returns a
parents list of the length of the input in which parent `i` wraps the `i`-th
way of the sorted slice; the wrapped ways are a permutation of the input ways
in (ID, Version) order, and no parent has children yet. -/
theorem convertWayData_parents_in_order {σ E O : Type} (heap : Heap) (ways : List WayPtr)
    (NodeHistory : NodeDatasource σ E) (ds : σ)
    (hfetch : ∀ ev ∈ (convertWayData heap ways NodeHistory ds : ConvResult σ E O).log,
      ev.fetchFailed = false) :
    ∃ parents histories,
      (convertWayData heap ways NodeHistory ds : ConvResult σ E O).result
        = Except.ok (parents, histories) ∧
      parents.length = ways.length ∧
      parents.map parentWay.Way = SortByIDVersion (wayKey heap) ways ∧
      parents.map parentWay.Way
        = (convertWayData heap ways NodeHistory ds : ConvResult σ E O).ways ∧
      (parents.map parentWay.Way).Perm ways ∧
      List.Sorted (byIDVersion (wayKey heap)) (parents.map parentWay.Way) ∧
      ∀ p ∈ parents, p.Children = none := by
  obtain ⟨parents, histories, hres⟩ := convertWayData_result_of_fetches heap ways NodeHistory ds hfetch
  obtain ⟨hps, -, -⟩ := convertWayData_ok heap ways NodeHistory ds parents histories hres
  have hmap : parents.map parentWay.Way = SortByIDVersion (wayKey heap) ways := by
    rw [hps, List.map_map]
    exact List.map_id _
  refine ⟨parents, histories, hres, ?_, hmap, ?_, ?_, ?_, ?_⟩
  · rw [hps, List.length_map, SortByIDVersion_length]
  · rw [hmap, convertWayData_ways]
  · rw [hmap]; exact SortByIDVersion_perm _ _
  · rw [hmap]; exact SortByIDVersion_sorted _ _
  · intro p hp
    rw [hps] at hp
    obtain ⟨w, -, rfl⟩ := List.mem_map.1 hp
    rfl

/-- Witness of C5: the run `exConvert`, in which every fetch succeeds. -/
theorem convertWayData_parents_in_order_witness :
    (∀ ev ∈ exConvert.log, ev.fetchFailed = false) ∧
    ∃ parents histories,
      exConvert.result = Except.ok (parents, histories) ∧
      parents.length = [0, 1, 2].length ∧
      parents.map parentWay.Way = SortByIDVersion (wayKey exHeap) [0, 1, 2] ∧
      parents.map parentWay.Way = exConvert.ways ∧
      (parents.map parentWay.Way).Perm [0, 1, 2] ∧
      List.Sorted (byIDVersion (wayKey exHeap)) (parents.map parentWay.Way) ∧
      ∀ p ∈ parents, p.Children = none :=
  ⟨by decide, convertWayData_parents_in_order exHeap [0, 1, 2] exDatasource 0 (by decide)⟩

/-- C6: when the datasource answers an empty node list without error for the
node `P` and no fetch fails, `convertWayData` does not fail and the index it
returns holds for `P` a present (non-nil) entry of length 0. -/
theorem convertWayData_empty_history {σ E O : Type} (heap : Heap) (ways : List WayPtr)
    (NodeHistory : NodeDatasource σ E) (ds : σ) (P : Int) (after : List Node)
    (hfetch : ∀ ev ∈ (convertWayData heap ways NodeHistory ds : ConvResult σ E O).log,
      ev.fetchFailed = false)
    (hempty : Event.nodeHistory P (Except.ok []) after
      ∈ (convertWayData heap ways NodeHistory ds : ConvResult σ E O).log) :
    Referenced heap ways P ∧
    ∃ parents histories,
      (convertWayData heap ways NodeHistory ds : ConvResult σ E O).result
        = Except.ok (parents, histories) ∧
      histories.Get { Kind := FeatureType.node, Ref := P } = some [] := by
  obtain ⟨parents, histories, hres⟩ := convertWayData_result_of_fetches heap ways NodeHistory ds hfetch
  obtain ⟨-, inv, hids⟩ := convertWayData_ok heap ways NodeHistory ds parents histories hres
  refine ⟨(hids P).1 (mem_fetchedIDs_of_mem hempty), parents, histories, hres, ?_⟩
  have := (inv.entries P [] after hempty).1
  simpa [nodesToChildList, SortByIDVersion, childrenFrom] using this

/-- Witness of C6: in the run `exConvert` the datasource answers an empty
history for node 6. -/
theorem convertWayData_empty_history_witness :
    (∀ ev ∈ exConvert.log, ev.fetchFailed = false) ∧
    Event.nodeHistory 6 (Except.ok []) [] ∈ exConvert.log ∧
    Referenced exHeap [0, 1, 2] 6 ∧
    ∃ parents histories,
      exConvert.result = Except.ok (parents, histories) ∧
      histories.Get { Kind := FeatureType.node, Ref := 6 } = some [] :=
  ⟨by decide, by decide,
   convertWayData_empty_history exHeap [0, 1, 2] exDatasource 0 6 [] (by decide) (by decide)⟩

/-- C8: when no call of `NodeHistory` answers an error, `convertWayData` calls
`NodeHistory` exactly once for every node ID some way references (whatever the
call answered, an empty history included) and never for another ID: the calls
made, their answers and the datasource state left behind are those of asking
the datasource once for each distinct referenced ID, in the order of first
reference; the index has a non-nil entry for exactly the referenced node IDs,
and the entry of each is `nodesToChildList` of what its one call answered. -/
theorem convertWayData_builds_index_once {σ E O : Type} (heap : Heap) (ways : List WayPtr)
    (NodeHistory : NodeDatasource σ E) (ds : σ)
    (hfetch : (replayFetches NodeHistory ds (requestOrder heap ways) : Replay σ E O).err
      = none) :
    ∃ parents histories,
      (convertWayData heap ways NodeHistory ds : ConvResult σ E O).result
        = Except.ok (parents, histories) ∧
      (convertWayData heap ways NodeHistory ds : ConvResult σ E O).log
        = (replayFetches NodeHistory ds (requestOrder heap ways) : Replay σ E O).log ∧
      (convertWayData heap ways NodeHistory ds : ConvResult σ E O).ds
        = (replayFetches NodeHistory ds (requestOrder heap ways) : Replay σ E O).ds ∧
      fetchedIDs (convertWayData heap ways NodeHistory ds : ConvResult σ E O).log
        = requestOrder heap ways ∧
      (requestOrder heap ways).Nodup ∧
      (∀ id, id ∈ requestOrder heap ways ↔ Referenced heap ways id) ∧
      (∀ id, Referenced heap ways id →
        (fetchedIDs (convertWayData heap ways NodeHistory ds : ConvResult σ E O).log).count id
          = 1) ∧
      (∀ id, ¬ Referenced heap ways id →
        (fetchedIDs (convertWayData heap ways NodeHistory ds : ConvResult σ E O).log).count id
          = 0) ∧
      (∀ fid : FeatureID, (histories.Get fid).isSome = true ↔
        (fid.Kind = FeatureType.node ∧ Referenced heap ways fid.Ref)) ∧
      (∀ id, Referenced heap ways id → ∃ nodes after,
        (∃ s, (NodeHistory s id).2 = Except.ok nodes) ∧
        Event.nodeHistory id (Except.ok nodes) after
          ∈ (convertWayData heap ways NodeHistory ds : ConvResult σ E O).log ∧
        histories.Get { Kind := FeatureType.node, Ref := id } = (nodesToChildList nodes).list) ∧
      (∀ id nodes after, Event.nodeHistory id (Except.ok nodes) after
          ∈ (convertWayData heap ways NodeHistory ds : ConvResult σ E O).log →
        (∃ s, (NodeHistory s id).2 = Except.ok nodes) ∧
        histories.Get { Kind := FeatureType.node, Ref := id }
          = (nodesToChildList nodes).list) := by
  obtain ⟨hds, hlog, -, hok⟩ := @convertWayData_replay σ E O heap ways NodeHistory ds
  obtain ⟨⟨parents, histories⟩, hres⟩ := hok.2 hfetch
  obtain ⟨-, inv, hids⟩ := convertWayData_ok heap ways NodeHistory ds parents histories hres
  have hreq : fetchedIDs (convertWayData heap ways NodeHistory ds : ConvResult σ E O).log
      = requestOrder heap ways := by
    rw [hlog]
    exact fetchedIDs_replayFetches NodeHistory _ _ hfetch
  have hanswer : ∀ id nodes after, Event.nodeHistory id (Except.ok nodes) after
      ∈ (convertWayData heap ways NodeHistory ds : ConvResult σ E O).log →
      ∃ s, (NodeHistory s id).2 = Except.ok nodes := by
    intro id nodes after hm
    rw [hlog] at hm
    exact replayFetches_answers NodeHistory _ _ id _ after hm
  refine ⟨parents, histories, hres, hlog, hds, hreq, ?_, ?_, ?_, ?_, ?_, ?_, ?_⟩
  · exact nodup_newIDs _ _
  · intro id
    rw [← hreq]
    exact hids id
  · intro id href
    exact List.count_eq_one_of_mem inv.nodup ((hids id).2 href)
  · intro id href
    exact List.count_eq_zero_of_not_mem (fun hin => href ((hids id).1 hin))
  · intro fid
    rw [inv.keys fid, hids fid.Ref]
  · intro id href
    obtain ⟨nodes, after, hm⟩ :=
      exists_ok_event_of_mem_fetchedIDs inv.fetchesOk ((hids id).2 href)
    exact ⟨nodes, after, hanswer id nodes after hm, hm, (inv.entries id nodes after hm).1⟩
  · intro id nodes after hm
    exact ⟨hanswer id nodes after hm, (inv.entries id nodes after hm).1⟩

/-- Witness of C8: the run `exConvert`, in which node 6 is referenced by two
ways and has an empty history; the datasource is asked for node 6, then for
node 5, and has counted two calls. -/
theorem convertWayData_builds_index_once_witness :
    (replayFetches exDatasource 0 (requestOrder exHeap [0, 1, 2]) : Replay Nat Nat Nat).err
      = none ∧
    requestOrder exHeap [0, 1, 2] = [6, 5] ∧
    exConvert.ds = 2 ∧
    ∃ parents histories,
      exConvert.result = Except.ok (parents, histories) ∧
      exConvert.log
        = (replayFetches exDatasource 0 (requestOrder exHeap [0, 1, 2])
            : Replay Nat Nat Nat).log ∧
      exConvert.ds
        = (replayFetches exDatasource 0 (requestOrder exHeap [0, 1, 2])
            : Replay Nat Nat Nat).ds ∧
      fetchedIDs exConvert.log = requestOrder exHeap [0, 1, 2] ∧
      (requestOrder exHeap [0, 1, 2]).Nodup ∧
      (∀ id, id ∈ requestOrder exHeap [0, 1, 2] ↔ Referenced exHeap [0, 1, 2] id) ∧
      (∀ id, Referenced exHeap [0, 1, 2] id → (fetchedIDs exConvert.log).count id = 1) ∧
      (∀ id, ¬ Referenced exHeap [0, 1, 2] id → (fetchedIDs exConvert.log).count id = 0) ∧
      (∀ fid : FeatureID, (histories.Get fid).isSome = true ↔
        (fid.Kind = FeatureType.node ∧ Referenced exHeap [0, 1, 2] fid.Ref)) ∧
      (∀ id, Referenced exHeap [0, 1, 2] id → ∃ nodes after,
        (∃ s, (exDatasource s id).2 = Except.ok nodes) ∧
        Event.nodeHistory id (Except.ok nodes) after ∈ exConvert.log ∧
        histories.Get { Kind := FeatureType.node, Ref := id } = (nodesToChildList nodes).list) ∧
      (∀ id nodes after, Event.nodeHistory id (Except.ok nodes) after ∈ exConvert.log →
        (∃ s, (exDatasource s id).2 = Except.ok nodes) ∧
        histories.Get { Kind := FeatureType.node, Ref := id }
          = (nodesToChildList nodes).list) :=
  ⟨by decide, by decide, by decide,
   convertWayData_builds_index_once exHeap [0, 1, 2] exDatasource 0 (by decide)⟩

/-! ## Ways -/

theorem optionTrace_zero {E O : Type} (opts : List (WaysOption E O)) (idx : Nat) (o : O) :
    optionTrace opts idx o 0 = [] := by
  cases opts <;> rfl

theorem optionTrace_isOption {E O : Type} : ∀ (opts : List (WaysOption E O)) (idx : Nat)
    (o : O) (count : Nat), ∀ ev ∈ optionTrace opts idx o count,
      ev.isOption = true ∧ ev.isFetch = false ∧ ev.isCompute = false := by
  intro opts
  induction opts with
  | nil => intro idx o count ev hev; simp [optionTrace] at hev
  | cons f rest ih =>
    intro idx o count ev hev
    cases count with
    | zero => simp [optionTrace] at hev
    | succ count =>
      simp only [optionTrace, List.mem_cons] at hev
      rcases hev with rfl | hev
      · exact ⟨rfl, rfl, rfl⟩
      · exact ih _ _ _ ev hev

theorem applyOptions_ok {E O : Type} : ∀ (opts : List (WaysOption E O)) (idx : Nat) (o o1 : O)
    (log log1 : List (Event E O)),
    applyOptions opts idx o log = ((o1, log1), none) →
    log1 = log ++ optionTrace opts idx o opts.length ∧
    ∀ ev ∈ optionTrace opts idx o opts.length, ev.optionFailed = false := by
  intro opts
  induction opts with
  | nil =>
    intro idx o o1 log log1 h
    simp only [applyOptions, Prod.mk.injEq, and_true] at h
    obtain ⟨-, h2⟩ := h
    subst h2
    simp [optionTrace]
  | cons f rest ih =>
    intro idx o o1 log log1 h
    cases hf : (f o).2 with
    | some err => simp [applyOptions, hf] at h
    | none =>
      simp only [applyOptions, hf] at h
      obtain ⟨h1, h2⟩ := ih _ _ _ _ _ h
      constructor
      · rw [h1]
        simp [optionTrace, hf]
      · intro ev hev
        simp only [optionTrace, List.length_cons, List.mem_cons, hf] at hev
        rcases hev with rfl | hev
        · rfl
        · exact h2 ev hev

theorem applyOptions_err {E O : Type} : ∀ (opts : List (WaysOption E O)) (idx : Nat) (o o1 : O)
    (log log1 : List (Event E O)) (err : E),
    applyOptions opts idx o log = ((o1, log1), some err) →
    ∃ k arg, k < opts.length ∧
      log1 = log ++ optionTrace opts idx o (k + 1) ∧
      optionTrace opts idx o (k + 1)
        = optionTrace opts idx o k ++ [Event.option (idx + k) arg (some err)] ∧
      ∀ ev ∈ optionTrace opts idx o k, ev.optionFailed = false := by
  intro opts
  induction opts with
  | nil =>
    intro idx o o1 log log1 err h
    simp [applyOptions] at h
  | cons f rest ih =>
    intro idx o o1 log log1 err h
    cases hf : (f o).2 with
    | some err2 =>
      simp only [applyOptions, hf, Prod.mk.injEq, Option.some.injEq] at h
      obtain ⟨⟨-, h2⟩, h3⟩ := h
      subst h2 h3
      exact ⟨0, o, by simp, by simp [optionTrace, optionTrace_zero, hf],
        by simp [optionTrace, optionTrace_zero, hf], by simp [optionTrace]⟩
    | none =>
      simp only [applyOptions, hf] at h
      obtain ⟨k, arg, hk, h1, h2, h3⟩ := ih _ _ _ _ _ _ h
      refine ⟨k + 1, arg, by simpa using hk, ?_, ?_, ?_⟩
      · rw [h1]
        simp [optionTrace, hf]
      · rw [optionTrace, h2, optionTrace]
        simp only [hf, List.cons_append, List.cons.injEq, true_and]
        congr 3
        omega
      · intro ev hev
        simp only [optionTrace, List.mem_cons, hf] at hev
        rcases hev with rfl | hev
        · rfl
        · exact h3 ev hev

theorem fillUpdates_other (ways : List WayPtr) : ∀ (us : List Updates) (i : Nat) (heap : Heap)
    (p : WayPtr), (∀ j, j < us.length → ways[i + j]? ≠ some p) →
    (fillUpdates ways us i heap).1 p = heap p := by
  intro us
  induction us with
  | nil => intro i heap p _; rfl
  | cons u rest ih =>
    intro i heap p hp
    cases hw : ways[i]? with
    | none => simp [fillUpdates, hw]
    | some w =>
      simp only [fillUpdates, hw]
      rw [ih (i + 1) _ p]
      · have hne : p ≠ w := by
          intro heq
          apply hp 0 (by simp)
          simpa [heq] using hw
        simp [Heap.set, hne]
      · intro j hj
        have := hp (j + 1) (by simpa using hj)
        rwa [show i + (j + 1) = i + 1 + j by omega] at this

theorem fillUpdates_spec (ways : List WayPtr) : ∀ (us : List Updates) (i : Nat) (heap : Heap),
    i + us.length ≤ ways.length →
    (fillUpdates ways us i heap).2 = true ∧
    ∀ k p, ways[i + k]? = some p → k < us.length →
      (∀ j, k < j → j < us.length → ways[i + j]? ≠ some p) →
      us[k]? = some ((fillUpdates ways us i heap).1 p).Updates := by
  intro us
  induction us with
  | nil =>
    intro i heap _
    exact ⟨rfl, fun k p _ hk => absurd hk (by simp)⟩
  | cons u rest ih =>
    intro i heap hlen
    simp only [List.length_cons] at hlen
    have hi : i < ways.length := by omega
    have hw : ways[i]? = some ways[i] := List.getElem?_eq_getElem hi
    obtain ⟨h1, h2⟩ := ih (i + 1) (heap.set ways[i] { heap ways[i] with Updates := u })
      (by omega)
    constructor
    · simp only [fillUpdates, hw]
      exact h1
    · intro k p hp hk hlater
      simp only [fillUpdates, hw]
      cases k with
      | zero =>
        have hpw : p = ways[i] := by
          simpa [hw] using hp.symm
        rw [fillUpdates_other ways rest (i + 1) _ p]
        · simp [Heap.set, hpw]
        · intro j hj
          have := hlater (j + 1) (by omega) (by simpa using hj)
          rwa [show i + (j + 1) = i + 1 + j by omega] at this
      | succ k =>
        simp only [List.getElem?_cons_succ]
        apply h2 k p
        · rwa [show i + (k + 1) = i + 1 + k by omega] at hp
        · simpa using hk
        · intro j hkj hj
          have := hlater (j + 1) (by omega) (by simpa using hj)
          rwa [show i + (j + 1) = i + 1 + j by omega] at this

theorem Ways_of_convert_error {σ E O : Type} (heap : Heap) (ways : List WayPtr)
    (NodeHistory : NodeDatasource σ E) (ds : σ) (threshold : Int)
    (opts : List (WaysOption E O)) (zeroOptions : O) (Compute : ComputeFn E O)
    (mapErrors : Option E → Option E) (err : E)
    (hc : (convertWayData heap ways NodeHistory ds : ConvResult σ E O).result
      = Except.error err) :
    Ways heap ways NodeHistory ds threshold opts zeroOptions Compute mapErrors =
      { ways := (convertWayData heap ways NodeHistory ds : ConvResult σ E O).ways,
        heap := heap,
        ds := (convertWayData heap ways NodeHistory ds : ConvResult σ E O).ds,
        log := (convertWayData heap ways NodeHistory ds : ConvResult σ E O).log,
        outcome := Outcome.returned (mapErrors (some err)) } := by
  unfold Ways
  simp only [hc]

theorem Ways_of_option_error {σ E O : Type} (heap : Heap) (ways : List WayPtr)
    (NodeHistory : NodeDatasource σ E) (ds : σ) (threshold : Int)
    (opts : List (WaysOption E O)) (zeroOptions : O) (Compute : ComputeFn E O)
    (mapErrors : Option E → Option E) (parents : List parentWay) (histories : Histories)
    (o1 : O) (log1 : List (Event E O)) (err : E)
    (hc : (convertWayData heap ways NodeHistory ds : ConvResult σ E O).result
      = Except.ok (parents, histories))
    (ha : applyOptions opts 0 zeroOptions
      (convertWayData heap ways NodeHistory ds : ConvResult σ E O).log = ((o1, log1), some err)) :
    Ways heap ways NodeHistory ds threshold opts zeroOptions Compute mapErrors =
      { ways := (convertWayData heap ways NodeHistory ds : ConvResult σ E O).ways,
        heap := heap,
        ds := (convertWayData heap ways NodeHistory ds : ConvResult σ E O).ds,
        log := log1,
        outcome := Outcome.returned (some err) } := by
  unfold Ways
  simp only [hc, ha]

theorem Ways_of_compute_error {σ E O : Type} (heap : Heap) (ways : List WayPtr)
    (NodeHistory : NodeDatasource σ E) (ds : σ) (threshold : Int)
    (opts : List (WaysOption E O)) (zeroOptions : O) (Compute : ComputeFn E O)
    (mapErrors : Option E → Option E) (parents : List parentWay) (histories : Histories)
    (o1 : O) (log1 : List (Event E O)) (err : E)
    (hc : (convertWayData heap ways NodeHistory ds : ConvResult σ E O).result
      = Except.ok (parents, histories))
    (ha : applyOptions opts 0 zeroOptions
      (convertWayData heap ways NodeHistory ds : ConvResult σ E O).log = ((o1, log1), none))
    (hr : (Compute parents histories threshold o1 heap).2 = Except.error err) :
    Ways heap ways NodeHistory ds threshold opts zeroOptions Compute mapErrors =
      { ways := (convertWayData heap ways NodeHistory ds : ConvResult σ E O).ways,
        heap := (Compute parents histories threshold o1 heap).1,
        ds := (convertWayData heap ways NodeHistory ds : ConvResult σ E O).ds,
        log := log1 ++ [Event.compute parents histories threshold o1 (Except.error err)],
        outcome := Outcome.returned (mapErrors (some err)) } := by
  unfold Ways
  simp only [hc, ha, hr]

theorem Ways_of_compute_ok {σ E O : Type} (heap : Heap) (ways : List WayPtr)
    (NodeHistory : NodeDatasource σ E) (ds : σ) (threshold : Int)
    (opts : List (WaysOption E O)) (zeroOptions : O) (Compute : ComputeFn E O)
    (mapErrors : Option E → Option E) (parents : List parentWay) (histories : Histories)
    (o1 : O) (log1 : List (Event E O)) (us : List Updates)
    (hc : (convertWayData heap ways NodeHistory ds : ConvResult σ E O).result
      = Except.ok (parents, histories))
    (ha : applyOptions opts 0 zeroOptions
      (convertWayData heap ways NodeHistory ds : ConvResult σ E O).log = ((o1, log1), none))
    (hr : (Compute parents histories threshold o1 heap).2 = Except.ok us) :
    Ways heap ways NodeHistory ds threshold opts zeroOptions Compute mapErrors =
      { ways := (convertWayData heap ways NodeHistory ds : ConvResult σ E O).ways,
        heap := (fillUpdates (convertWayData heap ways NodeHistory ds : ConvResult σ E O).ways
          us 0 (Compute parents histories threshold o1 heap).1).1,
        ds := (convertWayData heap ways NodeHistory ds : ConvResult σ E O).ds,
        log := log1 ++ [Event.compute parents histories threshold o1 (Except.ok us)],
        outcome :=
          if (fillUpdates (convertWayData heap ways NodeHistory ds : ConvResult σ E O).ways
            us 0 (Compute parents histories threshold o1 heap).1).2 = true
          then Outcome.returned none else Outcome.panicked } := by
  unfold Ways
  simp only [hc, ha, hr]
  cases hfill : fillUpdates (convertWayData heap ways NodeHistory ds : ConvResult σ E O).ways
      us 0 (Compute parents histories threshold o1 heap).1 with
  | mk heap1 flag =>
    cases flag <;> simp

theorem Ways_ways {σ E O : Type} (heap : Heap) (ways : List WayPtr)
    (NodeHistory : NodeDatasource σ E) (ds : σ) (threshold : Int)
    (opts : List (WaysOption E O)) (zeroOptions : O) (Compute : ComputeFn E O)
    (mapErrors : Option E → Option E) :
    (Ways heap ways NodeHistory ds threshold opts zeroOptions Compute mapErrors).ways
      = SortByIDVersion (wayKey heap) ways := by
  rw [← convertWayData_ways heap ways NodeHistory ds]
  cases hc : (convertWayData heap ways NodeHistory ds : ConvResult σ E O).result with
  | error err => rw [Ways_of_convert_error _ _ _ _ _ _ _ _ _ err hc]
  | ok v =>
    obtain ⟨parents, histories⟩ := v
    cases ha : applyOptions opts 0 zeroOptions
        (convertWayData heap ways NodeHistory ds : ConvResult σ E O).log with
    | mk ol res =>
      obtain ⟨o1, log1⟩ := ol
      cases res with
      | some err => rw [Ways_of_option_error _ _ _ _ _ _ _ _ _ _ _ _ _ err hc ha]
      | none =>
        cases hr : (Compute parents histories threshold o1 heap).2 with
        | error err => rw [Ways_of_compute_error _ _ _ _ _ _ _ _ _ _ _ _ _ err hc ha hr]
        | ok us => rw [Ways_of_compute_ok _ _ _ _ _ _ _ _ _ _ _ _ _ us hc ha hr]

/-- C7 (as stated, refuted): after `convertWayData` on the ways at addresses
0, 1, 2 the caller's slice holds them in the order 2, 1, 0, and the node list
the datasource returned for node 5, versions 2 then 1, holds versions 1 then
2. -/
theorem convertWayData_reorders_inputs :
    exConvert.ways = [2, 1, 0] ∧ exConvert.ways ≠ [0, 1, 2] ∧
    Event.nodeHistory 5 (Except.ok [exNode 5 2, exNode 5 1]) [exNode 5 1, exNode 5 2]
      ∈ exConvert.log ∧
    [exNode 5 1, exNode 5 2] ≠ [exNode 5 2, exNode 5 1] := by
  decide

/-- C7 (amended): `convertWayData`, and so `Ways`, reorders its inputs in
place and does nothing else to them: afterwards the caller's ways slice holds
a permutation of the same ways, in (ID, Version) order, and every node list
the datasource returned holds a permutation of the same nodes, in (ID,
Version) order. -/
theorem convertWayData_sorts_inputs_in_place {σ E O : Type} (heap : Heap)
    (ways : List WayPtr) (NodeHistory : NodeDatasource σ E) (ds : σ) (threshold : Int)
    (opts : List (WaysOption E O)) (zeroOptions : O) (Compute : ComputeFn E O)
    (mapErrors : Option E → Option E) :
    (convertWayData heap ways NodeHistory ds : ConvResult σ E O).ways.Perm ways ∧
    List.Sorted (byIDVersion (wayKey heap))
      (convertWayData heap ways NodeHistory ds : ConvResult σ E O).ways ∧
    (Ways heap ways NodeHistory ds threshold opts zeroOptions Compute mapErrors).ways
      = (convertWayData heap ways NodeHistory ds : ConvResult σ E O).ways ∧
    ∀ id nodes after, Event.nodeHistory id (Except.ok nodes) after
        ∈ (convertWayData heap ways NodeHistory ds : ConvResult σ E O).log →
      after.Perm nodes ∧ List.Sorted (byIDVersion Node.key) after := by
  have hentries : ∀ (st : ConvState σ E O), IndexInv st → ∀ id nodes after,
      Event.nodeHistory id (Except.ok nodes) after ∈ st.log →
      after.Perm nodes ∧ List.Sorted (byIDVersion Node.key) after := by
    intro st inv id nodes after hm
    rw [(inv.entries id nodes after hm).2]
    exact ⟨SortByIDVersion_perm _ _, SortByIDVersion_sorted _ _⟩
  refine ⟨?_, ?_, ?_, ?_⟩
  · rw [convertWayData_ways]; exact SortByIDVersion_perm _ _
  · rw [convertWayData_ways]; exact SortByIDVersion_sorted _ _
  · rw [Ways_ways, convertWayData_ways]
  · intro id nodes after hm
    cases hr : (convertWayData heap ways NodeHistory ds : ConvResult σ E O).result with
    | ok v =>
      obtain ⟨-, inv, -⟩ := convertWayData_ok heap ways NodeHistory ds v.1 v.2 hr
      exact hentries _ inv id nodes after hm
    | error err =>
      obtain ⟨pre, id2, inv, hlog⟩ := convertWayData_err heap ways NodeHistory ds err hr
      rw [hlog] at hm
      simp only [List.mem_append, List.mem_singleton] at hm
      rcases hm with hm | hm
      · exact hentries pre inv id nodes after hm
      · injection hm with _ h2 _
        cases h2

theorem Event.not_option_of_isFetch {E O : Type} {ev : Event E O} (h : ev.isFetch = true) :
    ev.isOption = false ∧ ev.optionFailed = false ∧ ev.isCompute = false := by
  cases ev <;> simp_all [Event.isFetch, Event.isOption, Event.optionFailed, Event.isCompute]

theorem Event.not_failed_of_isOption {E O : Type} {ev : Event E O} (h : ev.isOption = true) :
    ev.isFetch = false ∧ ev.fetchFailed = false ∧ ev.isCompute = false := by
  cases ev <;> simp_all [Event.isFetch, Event.isOption, Event.fetchFailed, Event.isCompute]

/-- The ways a call of `Ways` can go, with the log, the heap and the outcome of
each. -/
theorem Ways_shape {σ E O : Type} (heap : Heap) (ways : List WayPtr)
    (NodeHistory : NodeDatasource σ E) (ds : σ) (threshold : Int)
    (opts : List (WaysOption E O)) (zeroOptions : O) (Compute : ComputeFn E O)
    (mapErrors : Option E → Option E) :
    (∃ (pre : List (Event E O)) (id : Int) (err : E),
      FetchesOk pre ∧
      (Ways heap ways NodeHistory ds threshold opts zeroOptions Compute mapErrors).log
        = pre ++ [Event.nodeHistory id (Except.error err) []] ∧
      (Ways heap ways NodeHistory ds threshold opts zeroOptions Compute mapErrors).heap = heap ∧
      (Ways heap ways NodeHistory ds threshold opts zeroOptions Compute mapErrors).outcome
        = Outcome.returned (mapErrors (some err))) ∨
    (∃ (pre : List (Event E O)) (k : Nat) (arg : O) (err : E),
      FetchesOk pre ∧ k < opts.length ∧
      (Ways heap ways NodeHistory ds threshold opts zeroOptions Compute mapErrors).log
        = pre ++ optionTrace opts 0 zeroOptions (k + 1) ∧
      optionTrace opts 0 zeroOptions (k + 1)
        = optionTrace opts 0 zeroOptions k ++ [Event.option k arg (some err)] ∧
      (∀ ev ∈ optionTrace opts 0 zeroOptions k, ev.optionFailed = false) ∧
      (Ways heap ways NodeHistory ds threshold opts zeroOptions Compute mapErrors).heap = heap ∧
      (Ways heap ways NodeHistory ds threshold opts zeroOptions Compute mapErrors).outcome
        = Outcome.returned (some err)) ∨
    (∃ (pre : List (Event E O)) (histories : Histories) (o1 : O),
      FetchesOk pre ∧
      (∀ ev ∈ optionTrace opts 0 zeroOptions opts.length, ev.optionFailed = false) ∧
      (Ways heap ways NodeHistory ds threshold opts zeroOptions Compute mapErrors).log
        = pre ++ optionTrace opts 0 zeroOptions opts.length
          ++ [Event.compute ((SortByIDVersion (wayKey heap) ways).map
                (fun w => { Way := w, children := none })) histories threshold o1
              (Compute ((SortByIDVersion (wayKey heap) ways).map
                (fun w => { Way := w, children := none })) histories threshold o1 heap).2] ∧
      ((∃ err, (Compute ((SortByIDVersion (wayKey heap) ways).map
                (fun w => { Way := w, children := none })) histories threshold o1 heap).2
              = Except.error err ∧
          (Ways heap ways NodeHistory ds threshold opts zeroOptions Compute mapErrors).outcome
            = Outcome.returned (mapErrors (some err))) ∨
       (∃ us, (Compute ((SortByIDVersion (wayKey heap) ways).map
                (fun w => { Way := w, children := none })) histories threshold o1 heap).2
              = Except.ok us ∧
          (Ways heap ways NodeHistory ds threshold opts zeroOptions Compute mapErrors).heap
            = (fillUpdates (SortByIDVersion (wayKey heap) ways) us 0
                (Compute ((SortByIDVersion (wayKey heap) ways).map
                  (fun w => { Way := w, children := none })) histories threshold o1 heap).1).1 ∧
          (Ways heap ways NodeHistory ds threshold opts zeroOptions Compute mapErrors).outcome
            = if (fillUpdates (SortByIDVersion (wayKey heap) ways) us 0
                (Compute ((SortByIDVersion (wayKey heap) ways).map
                  (fun w => { Way := w, children := none })) histories threshold o1 heap).1).2
                = true
              then Outcome.returned none else Outcome.panicked))) := by
  cases hc : (convertWayData heap ways NodeHistory ds : ConvResult σ E O).result with
  | error err =>
    left
    obtain ⟨pre, id, inv, hlog⟩ := convertWayData_err heap ways NodeHistory ds err hc
    rw [Ways_of_convert_error _ _ _ _ _ _ _ _ _ err hc]
    exact ⟨pre.log, id, err, inv.fetchesOk, hlog, rfl, rfl⟩
  | ok v =>
    right
    obtain ⟨parents, histories⟩ := v
    obtain ⟨hps, inv, -⟩ := convertWayData_ok heap ways NodeHistory ds parents histories hc
    cases ha : applyOptions opts 0 zeroOptions
        (convertWayData heap ways NodeHistory ds : ConvResult σ E O).log with
    | mk ol res =>
      obtain ⟨o1, log1⟩ := ol
      cases res with
      | some err =>
        left
        obtain ⟨k, arg, hk, h1, h2, h3⟩ := applyOptions_err _ _ _ _ _ _ _ ha
        rw [Ways_of_option_error _ _ _ _ _ _ _ _ _ _ _ _ _ err hc ha]
        rw [Nat.zero_add] at h2
        exact ⟨_, k, arg, err, inv.fetchesOk, hk, h1, h2, h3, rfl, rfl⟩
      | none =>
        right
        obtain ⟨h1, h2⟩ := applyOptions_ok _ _ _ _ _ _ ha
        subst hps
        refine ⟨_, histories, o1, inv.fetchesOk, h2, ?_⟩
        cases hr : (Compute ((SortByIDVersion (wayKey heap) ways).map
            (fun w => { Way := w, children := none })) histories threshold o1 heap).2 with
        | error err =>
          rw [Ways_of_compute_error _ _ _ _ _ _ _ _ _ _ _ _ _ err hc ha hr]
          exact ⟨by rw [h1], Or.inl ⟨err, rfl, rfl⟩⟩
        | ok us =>
          rw [Ways_of_compute_ok _ _ _ _ _ _ _ _ _ _ _ _ _ us hc ha hr]
          refine ⟨by rw [h1], Or.inr ⟨us, rfl, ?_, ?_⟩⟩
          · simp only [convertWayData_ways]
          · simp only [convertWayData_ways]

/-- C2: when a call of `NodeHistory` answers an error (the datasource, asked
for the distinct referenced node IDs in the order of first reference, answers
`err` as its first error), `Ways` returns `mapErrors` of that error; the calls
made and the datasource state left behind are those up to and including the
failed call, which is the last call of the run and the only failed one; no
option is applied, `core.Compute` is not invoked, and no way is written. -/
theorem Ways_aborts_on_provider_error {σ E O : Type} (heap : Heap) (ways : List WayPtr)
    (NodeHistory : NodeDatasource σ E) (ds : σ) (threshold : Int)
    (opts : List (WaysOption E O)) (zeroOptions : O) (Compute : ComputeFn E O)
    (mapErrors : Option E → Option E) (err : E)
    (hfail : (replayFetches NodeHistory ds (requestOrder heap ways) : Replay σ E O).err
      = some err) :
    (Ways heap ways NodeHistory ds threshold opts zeroOptions Compute mapErrors).outcome
      = Outcome.returned (mapErrors (some err)) ∧
    (Ways heap ways NodeHistory ds threshold opts zeroOptions Compute mapErrors).log
      = (replayFetches NodeHistory ds (requestOrder heap ways) : Replay σ E O).log ∧
    (Ways heap ways NodeHistory ds threshold opts zeroOptions Compute mapErrors).ds
      = (replayFetches NodeHistory ds (requestOrder heap ways) : Replay σ E O).ds ∧
    (∃ pre id,
      (Ways heap ways NodeHistory ds threshold opts zeroOptions Compute mapErrors).log
        = pre ++ [Event.nodeHistory id (Except.error err) []] ∧
      (∃ s, (NodeHistory s id).2 = Except.error err) ∧
      ∀ ev ∈ pre, ev.isFetch = true ∧ ev.fetchFailed = false) ∧
    (∀ ev ∈ (Ways heap ways NodeHistory ds threshold opts zeroOptions Compute mapErrors).log,
      ev.isOption = false ∧ ev.isCompute = false) ∧
    (Ways heap ways NodeHistory ds threshold opts zeroOptions Compute mapErrors).heap = heap ∧
    ∀ p, ((Ways heap ways NodeHistory ds threshold opts zeroOptions Compute mapErrors).heap
      p).Updates = (heap p).Updates := by
  obtain ⟨hds, hlog, herr, -⟩ := @convertWayData_replay σ E O heap ways NodeHistory ds
  have hres := (herr err).2 hfail
  obtain ⟨pre, id, inv, hpre⟩ := convertWayData_err heap ways NodeHistory ds err hres
  rw [Ways_of_convert_error heap ways NodeHistory ds threshold opts zeroOptions Compute
    mapErrors err hres]
  refine ⟨rfl, hlog, hds, ⟨pre.log, id, hpre, ?_, inv.fetchesOk⟩, ?_, rfl, fun _ => rfl⟩
  · apply @replayFetches_answers σ E O NodeHistory (requestOrder heap ways) ds id _ []
    rw [← hlog, hpre]
    simp
  · intro ev hev
    simp only [hpre, List.mem_append, List.mem_singleton] at hev
    rcases hev with hev | rfl
    · have := Event.not_option_of_isFetch (inv.fetchesOk ev hev).1
      exact ⟨this.1, this.2.2⟩
    · exact ⟨rfl, rfl⟩

/-- Witness of C2: the run `exRunNoHistory`, in which the datasource is asked
for nodes 5, 6 and 7 and answers error 404 for node 7. -/
theorem Ways_aborts_on_provider_error_witness :
    (replayFetches exDatasource 0 (requestOrder exHeap [0, 3]) : Replay Nat Nat Nat).err
      = some 404 ∧
    requestOrder exHeap [0, 3] = [5, 6, 7] ∧
    exRunNoHistory.outcome = Outcome.returned (exMapErrors (some 404)) ∧
    exRunNoHistory.log
      = (replayFetches exDatasource 0 (requestOrder exHeap [0, 3]) : Replay Nat Nat Nat).log ∧
    exRunNoHistory.ds
      = (replayFetches exDatasource 0 (requestOrder exHeap [0, 3]) : Replay Nat Nat Nat).ds ∧
    (∃ pre id,
      exRunNoHistory.log = pre ++ [Event.nodeHistory id (Except.error 404) []] ∧
      (∃ s, (exDatasource s id).2 = Except.error 404) ∧
      ∀ ev ∈ pre, ev.isFetch = true ∧ ev.fetchFailed = false) ∧
    (∀ ev ∈ exRunNoHistory.log, ev.isOption = false ∧ ev.isCompute = false) ∧
    exRunNoHistory.heap = exHeap ∧
    ∀ p, (exRunNoHistory.heap p).Updates = (exHeap p).Updates :=
  ⟨by decide, by decide,
   Ways_aborts_on_provider_error exHeap [0, 3] exDatasource 0 5 [exOptionOk] 0 exCompute
     exMapErrors 404 (by decide)⟩

theorem filter_isOption_fetches {E O : Type} {pre : List (Event E O)} (hpre : FetchesOk pre) :
    pre.filter Event.isOption = [] := by
  rw [List.filter_eq_nil_iff]
  intro ev hev
  rw [(Event.not_option_of_isFetch (hpre ev hev).1).1]
  simp

theorem filter_isOption_optionTrace {E O : Type} (opts : List (WaysOption E O)) (idx : Nat)
    (o : O) (count : Nat) :
    (optionTrace opts idx o count).filter Event.isOption = optionTrace opts idx o count := by
  rw [List.filter_eq_self]
  intro ev hev
  exact (optionTrace_isOption opts idx o count ev hev).1

/-- C9: in a call of `Ways` in which all node-history fetches succeed, the
options are applied in the given order, the first to the fresh options value
and each next one to the value the one before it left; when none fails all of
them are applied; when one returns an error, `Ways` returns that error as it
is, it is the only failed option of the run, the options after it are not
applied, `core.Compute` is not invoked and no way is written. -/
theorem Ways_options_in_order {σ E O : Type} (heap : Heap) (ways : List WayPtr)
    (NodeHistory : NodeDatasource σ E) (ds : σ) (threshold : Int)
    (opts : List (WaysOption E O)) (zeroOptions : O) (Compute : ComputeFn E O)
    (mapErrors : Option E → Option E)
    (hfetch : ∀ ev ∈ (Ways heap ways NodeHistory ds threshold opts zeroOptions Compute
      mapErrors).log, ev.fetchFailed = false) :
    ((∀ ev ∈ (Ways heap ways NodeHistory ds threshold opts zeroOptions Compute mapErrors).log,
        ev.optionFailed = false) →
      (Ways heap ways NodeHistory ds threshold opts zeroOptions Compute mapErrors).log.filter
        Event.isOption = optionTrace opts 0 zeroOptions opts.length) ∧
    ∀ k arg err, Event.option k arg (some err)
        ∈ (Ways heap ways NodeHistory ds threshold opts zeroOptions Compute mapErrors).log →
      (Ways heap ways NodeHistory ds threshold opts zeroOptions Compute mapErrors).outcome
        = Outcome.returned (some err) ∧
      k < opts.length ∧
      (Ways heap ways NodeHistory ds threshold opts zeroOptions Compute mapErrors).log.filter
        Event.isOption = optionTrace opts 0 zeroOptions (k + 1) ∧
      optionTrace opts 0 zeroOptions (k + 1)
        = optionTrace opts 0 zeroOptions k ++ [Event.option k arg (some err)] ∧
      (∀ ev ∈ optionTrace opts 0 zeroOptions k, ev.optionFailed = false) ∧
      (∀ ev ∈ (Ways heap ways NodeHistory ds threshold opts zeroOptions Compute
        mapErrors).log, ev.isCompute = false) ∧
      (Ways heap ways NodeHistory ds threshold opts zeroOptions Compute mapErrors).heap = heap ∧
      ∀ p, ((Ways heap ways NodeHistory ds threshold opts zeroOptions Compute mapErrors).heap
        p).Updates = (heap p).Updates := by
  rcases Ways_shape heap ways NodeHistory ds threshold opts zeroOptions Compute mapErrors with
    ⟨pre, id2, err2, hpre, hlog, hheap, hout⟩ |
    ⟨pre, k2, arg2, err2, hpre, hk2, hlog, hlast, hbefore, hheap, hout⟩ |
    ⟨pre, histories, o1, hpre, hall, hlog, -⟩
  · exfalso
    have := hfetch (Event.nodeHistory id2 (Except.error err2) []) (by rw [hlog]; simp)
    simp [Event.fetchFailed] at this
  · constructor
    · intro hno
      exfalso
      have := hno (Event.option k2 arg2 (some err2)) (by rw [hlog, hlast]; simp)
      simp [Event.optionFailed] at this
    · intro k arg err hmem
      rw [hlog, hlast] at hmem
      simp only [List.mem_append, List.mem_singleton] at hmem
      rcases hmem with hmem | hmem | hmem
      · have := (Event.not_option_of_isFetch (hpre _ hmem).1).1
        simp [Event.isOption] at this
      · have := hbefore _ hmem
        simp [Event.optionFailed] at this
      · injection hmem with h1 h2 h3
        injection h3 with h3
        subst h1 h2 h3
        refine ⟨hout, hk2, ?_, hlast, hbefore, ?_, hheap, fun p => by rw [hheap]⟩
        · rw [hlog, List.filter_append, filter_isOption_fetches hpre,
            filter_isOption_optionTrace, List.nil_append]
        · intro ev hev
          rw [hlog] at hev
          rcases List.mem_append.1 hev with hev | hev
          · exact (Event.not_option_of_isFetch (hpre ev hev).1).2.2
          · exact (optionTrace_isOption _ _ _ _ ev hev).2.2
  · constructor
    · intro _
      rw [hlog, List.filter_append, List.filter_append, filter_isOption_fetches hpre,
        filter_isOption_optionTrace]
      simp [Event.isOption]
    · intro k arg err hmem
      exfalso
      rw [hlog] at hmem
      simp only [List.mem_append, List.mem_singleton] at hmem
      rcases hmem with (hmem | hmem) | hmem
      · have := (Event.not_option_of_isFetch (hpre _ hmem).1).1
        simp [Event.isOption] at this
      · have := hall _ hmem
        simp [Event.optionFailed] at this
      · cases hmem

/-- Witness of C9: the run `exRunBadOption`, in which the second of three
options fails with error 13. -/
theorem Ways_options_in_order_witness :
    (∀ ev ∈ exRunBadOption.log, ev.fetchFailed = false) ∧
    Event.option 1 1 (some 13) ∈ exRunBadOption.log ∧
    exRunBadOption.outcome = Outcome.returned (some 13) ∧
    exRunBadOption.log.filter Event.isOption
      = [Event.option 0 0 none, Event.option 1 1 (some 13)] ∧
    (∀ ev ∈ exRunBadOption.log, ev.isCompute = false) ∧
    exRunBadOption.heap = exHeap :=
  have h := (Ways_options_in_order exHeap [0, 1, 2] exDatasource 0 5
    [exOptionOk, exOptionErr, exOptionOk] 0 exCompute exMapErrors (by decide)).2
      1 1 13 (by decide)
  ⟨by decide, by decide, h.1, h.2.2.1, h.2.2.2.2.2.1, h.2.2.2.2.2.2.1⟩

/-- C1 (amended): when `core.Compute` is called and returns update lists
`us`, one for each way, `Ways` returns nil; no fetch and no option of the run
failed; the parents given to `Compute` wrap, position by position, the ways of
the sorted slice; and afterwards the way at position `i` of the slice has
`Updates = us[i]`, provided the same way is not also at a later position of
the slice. -/
theorem Ways_attaches_updates {σ E O : Type} (heap : Heap) (ways : List WayPtr)
    (NodeHistory : NodeDatasource σ E) (ds : σ) (threshold : Int)
    (opts : List (WaysOption E O)) (zeroOptions : O) (Compute : ComputeFn E O)
    (mapErrors : Option E → Option E)
    (parents : List parentWay) (histories : Histories) (t : Int) (computeOpts : O)
    (us : List Updates)
    (hcompute : Event.compute parents histories t computeOpts (Except.ok us)
      ∈ (Ways heap ways NodeHistory ds threshold opts zeroOptions Compute mapErrors).log)
    (hlen : us.length = ways.length) :
    (Ways heap ways NodeHistory ds threshold opts zeroOptions Compute mapErrors).outcome
      = Outcome.returned none ∧
    (∀ ev ∈ (Ways heap ways NodeHistory ds threshold opts zeroOptions Compute mapErrors).log,
      ev.fetchFailed = false ∧ ev.optionFailed = false) ∧
    (Ways heap ways NodeHistory ds threshold opts zeroOptions Compute mapErrors).ways
      = SortByIDVersion (wayKey heap) ways ∧
    parents.length = ways.length ∧
    parents.map parentWay.Way
      = (Ways heap ways NodeHistory ds threshold opts zeroOptions Compute mapErrors).ways ∧
    ∀ (i : Nat) (p : WayPtr),
      (Ways heap ways NodeHistory ds threshold opts zeroOptions Compute mapErrors).ways[i]?
        = some p →
      (∀ j, i < j →
        (Ways heap ways NodeHistory ds threshold opts zeroOptions Compute mapErrors).ways[j]?
          ≠ some p) →
      us[i]? = some
        ((Ways heap ways NodeHistory ds threshold opts zeroOptions Compute mapErrors).heap
          p).Updates := by
  have hways := Ways_ways heap ways NodeHistory ds threshold opts zeroOptions Compute mapErrors
  rcases Ways_shape heap ways NodeHistory ds threshold opts zeroOptions Compute mapErrors with
    ⟨pre, id2, err2, hpre, hlog, -, -⟩ |
    ⟨pre, k2, arg2, err2, hpre, -, hlog, -, -, -, -⟩ |
    ⟨pre, histories2, o1, hpre, hall, hlog, hres⟩
  · exfalso
    rw [hlog] at hcompute
    simp only [List.mem_append, List.mem_singleton] at hcompute
    rcases hcompute with h | h
    · have := (Event.not_option_of_isFetch (hpre _ h).1).2.2
      simp [Event.isCompute] at this
    · cases h
  · exfalso
    rw [hlog] at hcompute
    rcases List.mem_append.1 hcompute with h | h
    · have := (Event.not_option_of_isFetch (hpre _ h).1).2.2
      simp [Event.isCompute] at this
    · have := (optionTrace_isOption _ _ _ _ _ h).2.2
      simp [Event.isCompute] at this
  · have hlog2 := hlog
    rw [hlog] at hcompute
    simp only [List.mem_append, List.mem_singleton] at hcompute
    rcases hcompute with (h | h) | h
    · exfalso
      have := (Event.not_option_of_isFetch (hpre _ h).1).2.2
      simp [Event.isCompute] at this
    · exfalso
      have := (optionTrace_isOption _ _ _ _ _ h).2.2
      simp [Event.isCompute] at this
    · injection h with h1 h2 h3 h4 h5
      subst h1 h2 h3 h4
      rcases hres with ⟨err, herr, -⟩ | ⟨us2, hus, hheap, hout⟩
      · rw [herr] at h5; cases h5
      · rw [hus] at h5
        injection h5 with h5
        subst h5
        have hfill := fillUpdates_spec (SortByIDVersion (wayKey heap) ways) us 0
          (Compute ((SortByIDVersion (wayKey heap) ways).map
            (fun w => { Way := w, children := none })) histories t computeOpts heap).1
          (by rw [SortByIDVersion_length]; omega)
        refine ⟨?_, ?_, hways, ?_, ?_, ?_⟩
        · rw [hout, hfill.1]; rfl
        · intro ev hev
          rw [hlog2] at hev
          simp only [List.mem_append, List.mem_singleton] at hev
          rcases hev with (hev | hev) | rfl
          · exact ⟨(hpre ev hev).2, (Event.not_option_of_isFetch (hpre ev hev).1).2.1⟩
          · exact ⟨(Event.not_failed_of_isOption (optionTrace_isOption _ _ _ _ ev hev).1).2.1,
              hall ev hev⟩
          · exact ⟨rfl, rfl⟩
        · rw [List.length_map, SortByIDVersion_length]
        · rw [hways, List.map_map]
          exact List.map_id _
        · intro i p hp hlater
          rw [hways] at hp hlater
          rw [hheap]
          apply hfill.2 i p
          · simpa using hp
          · have hi : i < (SortByIDVersion (wayKey heap) ways).length := by
              by_contra hcon
              rw [List.getElem?_eq_none (by omega)] at hp
              cases hp
            rw [SortByIDVersion_length] at hi
            omega
          · intro j hij _
            simpa using hlater j hij

/-- Witness of C1 (amended): the run `exRun` on three distinct ways. -/
theorem Ways_attaches_updates_witness :
    Event.compute [⟨2, none⟩, ⟨1, none⟩, ⟨0, none⟩] exHistories 5 1
      (Except.ok [exUpdates 0, exUpdates 1, exUpdates 2]) ∈ exRun.log ∧
    [exUpdates 0, exUpdates 1, exUpdates 2].length = [0, 1, 2].length ∧
    exRun.outcome = Outcome.returned none ∧
    (∀ ev ∈ exRun.log, ev.fetchFailed = false ∧ ev.optionFailed = false) ∧
    exRun.ways = SortByIDVersion (wayKey exHeap) [0, 1, 2] ∧
    [(⟨2, none⟩ : parentWay), ⟨1, none⟩, ⟨0, none⟩].length = [0, 1, 2].length ∧
    [(⟨2, none⟩ : parentWay), ⟨1, none⟩, ⟨0, none⟩].map parentWay.Way = exRun.ways ∧
    ∀ (i : Nat) (p : WayPtr), exRun.ways[i]? = some p → (∀ j, i < j → exRun.ways[j]? ≠ some p) →
      [exUpdates 0, exUpdates 1, exUpdates 2][i]? = some (exRun.heap p).Updates :=
  ⟨by decide, by decide,
   Ways_attaches_updates exHeap [0, 1, 2] exDatasource 0 5 [exOptionOk] 0 exCompute
     exMapErrors [⟨2, none⟩, ⟨1, none⟩, ⟨0, none⟩] exHistories 5 1
     [exUpdates 0, exUpdates 1, exUpdates 2] (by decide) (by decide)⟩

/-- C1 (as stated, refuted): on a slice that holds the way at address 2 twice,
all fetches and options succeed and `core.Compute` returns the update lists
`exUpdates 0` and `exUpdates 1` for its two parents; `Ways` returns nil, and
the way at position 0 of the slice has `Updates = exUpdates 1`, not
`exUpdates 0`. -/
theorem Ways_aliased_way_keeps_last_updates :
    (∀ ev ∈ exRunAliased.log, ev.fetchFailed = false ∧ ev.optionFailed = false) ∧
    Event.compute [⟨2, none⟩, ⟨2, none⟩] Histories.empty 5 0
      (Except.ok [exUpdates 0, exUpdates 1]) ∈ exRunAliased.log ∧
    [exUpdates 0, exUpdates 1].length = [2, 2].length ∧
    exRunAliased.outcome = Outcome.returned none ∧
    exRunAliased.ways[0]? = some 2 ∧
    [exUpdates 0, exUpdates 1][0]? = some (exUpdates 0) ∧
    (exRunAliased.heap 2).Updates = exUpdates 1 ∧
    (exRunAliased.heap 2).Updates ≠ exUpdates 0 := by
  decide

end Annotate
